import Mathlib

/-!
Shallow embedding of the mat64 Cholesky core: the checked and unchecked
element accessors of the four matrix view kinds (general dense, vector,
symmetric, triangular), the unblocked Cholesky factorization, and the two
triangular-solve drivers.

Modelling conventions:
* The flat strided buffer is abstracted to an indexed function
  `Nat → Nat → α` (respectively `Nat → α` for vectors): element (r, c) of a
  view lives at buffer offset r*stride + c, and because stride is at least
  the column count this offset map is injective on in-range coordinates, so
  a view never observes a difference between the flat buffer and the
  indexed function.  Loop counters in the Go code are non-negative ints,
  embedded as `Nat`; the public accessors take `Int` indices so that the
  negative-index checks of the source are preserved.
* A Go panic is embedded as the `Except.error` branch carrying the panic
  value; the distinct panic values of the source become the distinct
  constructors of `MatError`.
* IEEE-754 double arithmetic is idealized as real arithmetic, so the
  numerical statements below are the exact (zero-tolerance) versions of the
  floating-point statements.
* `blas.Uplo` has the two meaningful values Upper and Lower plus the zero
  value of an uninitialized tag, embedded as the constructor `Uplo.Zero`.
  The Go comparisons `== blas.Upper` / `== blas.Lower` translate literally,
  including the fact that `TriDense.at` treats every non-Upper tag like
  Lower while `SetTri` checks the two tags separately.
-/

namespace Mat64

open Matrix

/-- Triangle orientation tag of `blas.Uplo`: Upper, Lower, or the zero
value of an uninitialized tag. -/
inductive Uplo where
  | Upper : Uplo
  | Lower : Uplo
  | Zero : Uplo
deriving DecidableEq

/-- The distinct panic values of the mat64 core: `ErrRowAccess`,
`ErrColAccess`, `ErrShape`, the string constant `badTriangle`
("mat64: invalid triangle"), and the triangular structural-write panic
string "mat64: triangular set out of bounds". -/
inductive MatError where
  | ErrRowAccess : MatError
  | ErrColAccess : MatError
  | ErrShape : MatError
  | BadTriangle : MatError
  | ErrTriangleSet : MatError
deriving DecidableEq

/-- Point update of an abstracted two-dimensional buffer. -/
def upd {α : Type} (f : Nat → Nat → α) (r c : Nat) (v : α) : Nat → Nat → α :=
  fun r' c' => if r' = r ∧ c' = c then v else f r' c'

/-- General dense view: row and column counts plus the abstracted buffer.
The `ptr` field stands for the object identity of the Go value, used only
by the solvers for the `b != m` aliasing test, which the source performs on
pointers and never on element values. -/
structure Dense (α : Type) where
  rows : Nat
  cols : Nat
  ptr : Nat
  data : Nat → Nat → α

/-- Vector view (1-column specialization): length plus abstracted buffer
(offset r*Inc abstracted to index r). -/
structure Vector (α : Type) where
  n : Nat
  data : Nat → α

/-- Symmetric view: dimension plus abstracted buffer; only coordinates with
r ≤ c are ever touched by its accessors. -/
structure SymDense (α : Type) where
  n : Nat
  data : Nat → Nat → α

/-- Triangular view: dimension, orientation tag, abstracted buffer. -/
structure TriDense (α : Type) where
  n : Nat
  uplo : Uplo
  data : Nat → Nat → α

variable {α : Type}

/-- Unchecked read, `Dense.at` of the source. -/
def Dense.at' (m : Dense α) (r c : Nat) : α := m.data r c

/-- Checked read, `Dense.At` of the source. -/
def Dense.At (m : Dense α) (r c : Int) : Except MatError α :=
  if r ≥ (m.rows : Int) ∨ r < 0 then .error .ErrRowAccess
  else if c ≥ (m.cols : Int) ∨ c < 0 then .error .ErrColAccess
  else .ok (m.at' r.toNat c.toNat)

/-- Unchecked write, `Dense.set` of the source. -/
def Dense.set (m : Dense α) (r c : Nat) (v : α) : Dense α :=
  { m with data := upd m.data r c v }

/-- Checked write, `Dense.Set` of the source. -/
def Dense.Set (m : Dense α) (r c : Int) (v : α) : Except MatError (Dense α) :=
  if r ≥ (m.rows : Int) ∨ r < 0 then .error .ErrRowAccess
  else if c ≥ (m.cols : Int) ∨ c < 0 then .error .ErrColAccess
  else .ok (m.set r.toNat c.toNat v)

/-- Unchecked read, `Vector.at` of the source. -/
def Vector.at' (m : Vector α) (r : Nat) : α := m.data r

/-- Checked read, `Vector.At` of the source: the column index must be 0. -/
def Vector.At (m : Vector α) (r c : Int) : Except MatError α :=
  if r < 0 ∨ r ≥ (m.n : Int) then .error .ErrRowAccess
  else if c ≠ 0 then .error .ErrColAccess
  else .ok (m.at' r.toNat)

/-- Unchecked write, `Vector.set` of the source. -/
def Vector.set (m : Vector α) (r : Nat) (v : α) : Vector α :=
  { m with data := fun r' => if r' = r then v else m.data r' }

/-- Checked write, `Vector.Set` of the source: the column index must be 0. -/
def Vector.Set (m : Vector α) (r c : Int) (v : α) : Except MatError (Vector α) :=
  if r < 0 ∨ r ≥ (m.n : Int) then .error .ErrRowAccess
  else if c ≠ 0 then .error .ErrColAccess
  else .ok (m.set r.toNat v)

/-- Unchecked read, `SymDense.at` of the source: canonicalizes (r, c) to
(min, max) before reading the buffer. -/
def SymDense.at' (s : SymDense α) (r c : Nat) : α :=
  if r > c then s.data c r else s.data r c

/-- Checked read, `SymDense.At` of the source. -/
def SymDense.At (s : SymDense α) (r c : Int) : Except MatError α :=
  if r ≥ (s.n : Int) ∨ r < 0 then .error .ErrRowAccess
  else if c ≥ (s.n : Int) ∨ c < 0 then .error .ErrColAccess
  else .ok (s.at' r.toNat c.toNat)

/-- Unchecked write, `SymDense.set` of the source: canonicalizes (r, c) to
(min, max) before writing the buffer. -/
def SymDense.set (s : SymDense α) (r c : Nat) (v : α) : SymDense α :=
  if r > c then { s with data := upd s.data c r v }
  else { s with data := upd s.data r c v }

/-- Checked write, `SymDense.SetSym` of the source. -/
def SymDense.SetSym (s : SymDense α) (r c : Int) (v : α) :
    Except MatError (SymDense α) :=
  if r ≥ (s.n : Int) ∨ r < 0 then .error .ErrRowAccess
  else if c ≥ (s.n : Int) ∨ c < 0 then .error .ErrColAccess
  else .ok (s.set r.toNat c.toNat v)

/-- Unchecked read, `TriDense.at` of the source: the inactive side of the
diagonal reads as the structural zero; every tag other than Upper is
treated like Lower, as in the source. -/
def TriDense.at' [Zero α] (t : TriDense α) (r c : Nat) : α :=
  if t.uplo = Uplo.Upper then
    if r > c then 0 else t.data r c
  else
    if r < c then 0 else t.data r c

/-- Checked read, `TriDense.At` of the source. -/
def TriDense.At [Zero α] (t : TriDense α) (r c : Int) : Except MatError α :=
  if r ≥ (t.n : Int) ∨ r < 0 then .error .ErrRowAccess
  else if c ≥ (t.n : Int) ∨ c < 0 then .error .ErrColAccess
  else .ok (t.at' r.toNat c.toNat)

/-- Unchecked write, `TriDense.set` of the source. -/
def TriDense.set (t : TriDense α) (r c : Nat) (v : α) : TriDense α :=
  { t with data := upd t.data r c v }

/-- Checked write, `TriDense.SetTri` of the source: after the range checks,
writing the inactive side of the diagonal is a structural violation. -/
def TriDense.SetTri (t : TriDense α) (r c : Int) (v : α) :
    Except MatError (TriDense α) :=
  if r ≥ (t.n : Int) ∨ r < 0 then .error .ErrRowAccess
  else if c ≥ (t.n : Int) ∨ c < 0 then .error .ErrColAccess
  else if t.uplo = Uplo.Upper ∧ r > c then .error .ErrTriangleSet
  else if t.uplo = Uplo.Lower ∧ r < c then .error .ErrTriangleSet
  else .ok (t.set r.toNat c.toNat v)

/-- Modelled from the spec: `Symmetric()` reports the dimension n of the
symmetric view (its body is outside this core). -/
def SymDense.Symmetric (a : SymDense α) : Nat := a.n

/-- Modelled from the spec: `isZero` recognizes the empty state of a
triangular view (the state in which the factorizer allocates it afresh). -/
def TriDense.isZero (t : TriDense α) : Bool := t.n == 0

/-- Modelled from the spec: `Reset()` puts the triangular view into the
empty/zero state, with no orientation claimed and no observable element. -/
def TriDense.Reset [Zero α] : TriDense α :=
  { n := 0, uplo := Uplo.Zero, data := fun _ _ => 0 }

/-- The state threaded through the factorization loops: the symmetric input
view and the triangular output view.  Every write of the source goes to the
`t` component; the `a` component is only read. -/
structure CholSt where
  a : SymDense ℝ
  t : TriDense ℝ

/-- Inner loop of the upper branch of `TriDense.Cholesky`, for column `j`,
after `k` iterations: each iteration computes the strided dot product
`asm.DdotInc(mat, mat, k, stride, stride, k, j)` over the already-written
entries, writes entry (k, j), and accumulates the sum of squares `d`. -/
noncomputable def cholInnerU (j : Nat) : Nat → CholSt → CholSt × ℝ
  | 0, s => (s, 0)
  | k + 1, s =>
    let p := cholInnerU j k s
    let s1 := p.1
    let dot := ∑ i ∈ Finset.range k, s1.t.data i k * s1.t.data i j
    let v := (s1.a.at' j k - dot) / s1.t.at' k k
    (⟨s1.a, s1.t.set k j v⟩, p.2 + v * v)

/-- Column step of the upper branch: run the inner loop, form the diagonal
candidate `d`, fail (resetting the target) if `d ≤ 0`, otherwise write
`sqrt(max(d, 0))` on the diagonal. -/
noncomputable def cholColU (j : Nat) (s : CholSt) : Bool × CholSt :=
  let p := cholInnerU j j s
  let d := p.1.a.at' j j - p.2
  if d ≤ 0 then (false, ⟨p.1.a, TriDense.Reset⟩)
  else (true, ⟨p.1.a, p.1.t.set j j (Real.sqrt (max d 0))⟩)

/-- Outer loop of the upper branch after `m` columns, with the early return
of the source on a failed column. -/
noncomputable def cholColsU : Nat → CholSt → Bool × CholSt
  | 0, s => (true, s)
  | m + 1, s =>
    let p := cholColsU m s
    if p.1 then cholColU m p.2 else p

/-- Inner loop of the lower branch of `TriDense.Cholesky`, for column `j`,
after `k` iterations: each iteration computes the contiguous dot product
`asm.DdotUnitary(mat[k*stride:k*stride+k], mat[j*stride:j*stride+k])`,
writes entry (j, k), and accumulates the sum of squares `d`. -/
noncomputable def cholInnerL (j : Nat) : Nat → CholSt → CholSt × ℝ
  | 0, s => (s, 0)
  | k + 1, s =>
    let p := cholInnerL j k s
    let s1 := p.1
    let dot := ∑ i ∈ Finset.range k, s1.t.data k i * s1.t.data j i
    let v := (s1.a.at' j k - dot) / s1.t.at' k k
    (⟨s1.a, s1.t.set j k v⟩, p.2 + v * v)

/-- Column step of the lower branch. -/
noncomputable def cholColL (j : Nat) (s : CholSt) : Bool × CholSt :=
  let p := cholInnerL j j s
  let d := p.1.a.at' j j - p.2
  if d ≤ 0 then (false, ⟨p.1.a, TriDense.Reset⟩)
  else (true, ⟨p.1.a, p.1.t.set j j (Real.sqrt (max d 0))⟩)

/-- Outer loop of the lower branch after `m` columns. -/
noncomputable def cholColsL : Nat → CholSt → Bool × CholSt
  | 0, s => (true, s)
  | m + 1, s =>
    let p := cholColsL m s
    if p.1 then cholColL m p.2 else p

/-- Body of `TriDense.Cholesky` after the shape handling: tag the
orientation of the target, then run the column loop of the chosen branch. -/
noncomputable def cholBody (s : CholSt) (upper : Bool) (n : Nat) : Bool × CholSt :=
  if upper then cholColsU n ⟨s.a, { s.t with uplo := Uplo.Upper }⟩
  else cholColsL n ⟨s.a, { s.t with uplo := Uplo.Lower }⟩

/-- `TriDense.Cholesky` of the source: allocate the target to n×n if it is
empty (the `use` call keeps the underlying buffer and the assignment of a
fresh `blas64.Triangular` literal leaves the orientation tag at its zero
value), panic with `ErrShape` if it is non-empty of a different dimension,
then run the factorization body. -/
noncomputable def TriDense.Cholesky (t : TriDense ℝ) (a : SymDense ℝ) (upper : Bool) :
    Except MatError (Bool × CholSt) :=
  let n := a.Symmetric
  if t.isZero then
    .ok (cholBody ⟨a, { n := n, uplo := Uplo.Zero, data := t.data }⟩ upper n)
  else if n ≠ t.n then .error .ErrShape
  else .ok (cholBody ⟨a, t⟩ upper n)

/-- The diagonal candidate `d` that the upper branch forms at column `j`,
as a function of the state reaching that column. -/
noncomputable def cholPivotU (s : CholSt) (j : Nat) : ℝ :=
  let s' := (cholColsU j s).2
  let p := cholInnerU j j s'
  p.1.a.at' j j - p.2

/-- The diagonal candidate `d` that the lower branch forms at column `j`,
as a function of the state reaching that column. -/
noncomputable def cholPivotL (s : CholSt) (j : Nat) : ℝ :=
  let s' := (cholColsL j s).2
  let p := cholInnerL j j s'
  p.1.a.at' j j - p.2

/-- The state entering the column loop of `TriDense.Cholesky` on a call
satisfying the shape precondition: the target (allocated afresh if empty)
with its orientation tag set for the requested branch, paired with the
input. -/
noncomputable def bodyStart (t : TriDense ℝ) (a : SymDense ℝ) (upper : Bool) : CholSt :=
  let t0 : TriDense ℝ :=
    if t.isZero then { n := a.n, uplo := Uplo.Zero, data := t.data } else t
  ⟨a, { t0 with uplo := if upper then Uplo.Upper else Uplo.Lower }⟩

/-- Whether the column loop of the chosen branch is still in the success
state after its first `j` columns. -/
noncomputable def cholFlagAt (t : TriDense ℝ) (a : SymDense ℝ) (upper : Bool)
    (j : Nat) : Bool :=
  if upper then (cholColsU j (bodyStart t a upper)).1
  else (cholColsL j (bodyStart t a upper)).1

/-- The diagonal candidate `d` formed at column `j` of the chosen branch of
a shape-valid `TriDense.Cholesky` call. -/
noncomputable def cholPivot (t : TriDense ℝ) (a : SymDense ℝ) (upper : Bool)
    (j : Nat) : ℝ :=
  if upper then cholPivotU (bodyStart t a upper) j
  else cholPivotL (bodyStart t a upper) j

/-- Variant of the upper column step with the defensive clamp removed:
`sqrt d` in place of `sqrt(max(d, 0))`. -/
noncomputable def cholColUNC (j : Nat) (s : CholSt) : Bool × CholSt :=
  let p := cholInnerU j j s
  let d := p.1.a.at' j j - p.2
  if d ≤ 0 then (false, ⟨p.1.a, TriDense.Reset⟩)
  else (true, ⟨p.1.a, p.1.t.set j j (Real.sqrt d)⟩)

/-- Variant of the lower column step with the defensive clamp removed. -/
noncomputable def cholColLNC (j : Nat) (s : CholSt) : Bool × CholSt :=
  let p := cholInnerL j j s
  let d := p.1.a.at' j j - p.2
  if d ≤ 0 then (false, ⟨p.1.a, TriDense.Reset⟩)
  else (true, ⟨p.1.a, p.1.t.set j j (Real.sqrt d)⟩)

/-- Outer upper loop built on the clamp-free column step. -/
noncomputable def cholColsUNC : Nat → CholSt → Bool × CholSt
  | 0, s => (true, s)
  | m + 1, s =>
    let p := cholColsUNC m s
    if p.1 then cholColUNC m p.2 else p

/-- Outer lower loop built on the clamp-free column step. -/
noncomputable def cholColsLNC : Nat → CholSt → Bool × CholSt
  | 0, s => (true, s)
  | m + 1, s =>
    let p := cholColsLNC m s
    if p.1 then cholColLNC m p.2 else p

/-- Factorization body built on the clamp-free column steps. -/
noncomputable def cholBodyNC (s : CholSt) (upper : Bool) (n : Nat) : Bool × CholSt :=
  if upper then cholColsUNC n ⟨s.a, { s.t with uplo := Uplo.Upper }⟩
  else cholColsLNC n ⟨s.a, { s.t with uplo := Uplo.Lower }⟩

/-- `TriDense.Cholesky` with the defensive `max(d, 0)` clamp removed. -/
noncomputable def CholeskyNC (t : TriDense ℝ) (a : SymDense ℝ) (upper : Bool) :
    Except MatError (Bool × CholSt) :=
  let n := a.Symmetric
  if t.isZero then
    .ok (cholBodyNC ⟨a, { n := n, uplo := Uplo.Zero, data := t.data }⟩ upper n)
  else if n ≠ t.n then .error .ErrShape
  else .ok (cholBodyNC ⟨a, t⟩ upper n)

/-- The logical n×n matrix presented by a symmetric view, read through its
(mirroring) unchecked accessor. -/
noncomputable def SymDense.toMatrix (a : SymDense ℝ) :
    Matrix (Fin a.n) (Fin a.n) ℝ :=
  Matrix.of fun i j => a.at' i j

/-- The logical n×n matrix presented by a triangular view, read through its
(structural-zero) unchecked accessor, at an externally given dimension. -/
noncomputable def TriDense.matN (t : TriDense ℝ) (n : Nat) :
    Matrix (Fin n) (Fin n) ℝ :=
  Matrix.of fun i j => t.at' i j

/-- Modelled from the spec: `reuseAs` fits the result view to the shape of
the right-hand side, keeping its buffer and identity (its body is outside
this core). -/
def Dense.reuseAs (m : Dense α) (r c : Nat) : Dense α :=
  { m with rows := r, cols := c }

/-- Modelled from the spec: `Copy` copies the element values of the
right-hand side into the result view's buffer. -/
def Dense.Copy (m b : Dense α) : Dense α := { m with data := b.data }

/-- One invocation of the external `blas64.Trsm` kernel, recorded with its
transpose flag and the orientation of the triangular operand. -/
structure KernelCall where
  trans : Bool
  uplo : Uplo
deriving DecidableEq

/-- `Dense.SolveCholesky` of the source, parametrized by the external
triangular-solve kernel `trsm` (transpose flag, triangular operand, dense
operand solved in place).  The result records the solution view, whether
`m.Copy(b)` ran (it runs unless `b` and `m` are the identical object), and
the sequence of kernel invocations. -/
def Dense.SolveCholesky (m : Dense ℝ) (t : TriDense ℝ) (b : Dense ℝ)
    (trsm : Bool → TriDense ℝ → Dense ℝ → Dense ℝ) :
    Except MatError (Dense ℝ × Bool × List KernelCall) :=
  if t.n ≠ b.rows then .error .ErrShape
  else
    let m1 := m.reuseAs b.rows b.cols
    let copied := b.ptr != m.ptr
    let m2 := if copied then m1.Copy b else m1
    match t.uplo with
    | Uplo.Upper =>
        .ok (trsm false t (trsm true t m2), copied,
          [⟨true, Uplo.Upper⟩, ⟨false, Uplo.Upper⟩])
    | Uplo.Lower =>
        .ok (trsm true t (trsm false t m2), copied,
          [⟨false, Uplo.Lower⟩, ⟨true, Uplo.Lower⟩])
    | Uplo.Zero => .error .BadTriangle

/-- `Dense.SolveTri` of the source, parametrized like `SolveCholesky`: one
kernel invocation with the requested transpose flag, after the same shape
check, reuse, and conditional copy. -/
def Dense.SolveTri (m : Dense ℝ) (a : TriDense ℝ) (trans : Bool) (b : Dense ℝ)
    (trsm : Bool → TriDense ℝ → Dense ℝ → Dense ℝ) :
    Except MatError (Dense ℝ × Bool × List KernelCall) :=
  if a.n ≠ b.rows then .error .ErrShape
  else
    let m1 := m.reuseAs b.rows b.cols
    let copied := b.ptr != m.ptr
    let m2 := if copied then m1.Copy b else m1
    match a.uplo with
    | Uplo.Upper => .ok (trsm trans a m2, copied, [⟨trans, Uplo.Upper⟩])
    | Uplo.Lower => .ok (trsm trans a m2, copied, [⟨trans, Uplo.Lower⟩])
    | Uplo.Zero => .error .BadTriangle

/-! ### Basic accessor lemmas -/

/-- On the diagonal, the unchecked triangular read returns the stored entry
whatever the orientation tag is. -/
theorem TriDense.at'_diag [Zero α] (t : TriDense α) (k : Nat) :
    t.at' k k = t.data k k := by
  unfold TriDense.at'
  by_cases h : t.uplo = Uplo.Upper
  · rw [if_pos h, if_neg (lt_irrefl k)]
  · rw [if_neg h, if_neg (lt_irrefl k)]

/-- The unchecked symmetric read is symmetric in its two indices. -/
theorem SymDense.at'_symm (s : SymDense α) (r c : Nat) :
    s.at' r c = s.at' c r := by
  unfold SymDense.at'
  rcases lt_trichotomy r c with h | h | h
  · rw [if_neg (by omega), if_pos h]
  · subst h; rfl
  · rw [if_pos h, if_neg (by omega)]

theorem upd_same {α : Type} (f : Nat → Nat → α) (r c : Nat) (v : α) :
    upd f r c v r c = v := by
  simp [upd]

theorem upd_other {α : Type} (f : Nat → Nat → α) (r c : Nat) (v : α)
    (r' c' : Nat) (h : ¬(r' = r ∧ c' = c)) : upd f r c v r' c' = f r' c' := by
  simp only [upd, if_neg h]

/-! ### C5: triangular structural zero on read, structural violation on
write -/

/-- C5: on an in-range coordinate strictly on the inactive side of the
diagonal (r > c for an upper view, r < c for a lower view), the checked
triangular read returns exactly 0 without failing, while the checked
triangular write fails with the structural violation, a panic value
distinct from both out-of-range violations. -/
theorem tri_inactive_get_zero_set_panics {α : Type} [Zero α]
    (t : TriDense α) (r c : Int) (v : α)
    (hr0 : 0 ≤ r) (hrn : r < (t.n : Int)) (hc0 : 0 ≤ c) (hcn : c < (t.n : Int))
    (hside : (t.uplo = Uplo.Upper ∧ c < r) ∨ (t.uplo = Uplo.Lower ∧ r < c)) :
    t.At r c = .ok 0 ∧ t.SetTri r c v = .error .ErrTriangleSet ∧
      MatError.ErrTriangleSet ≠ MatError.ErrRowAccess ∧
      MatError.ErrTriangleSet ≠ MatError.ErrColAccess := by
  refine ⟨?_, ?_, by decide, by decide⟩
  · unfold TriDense.At TriDense.at'
    rw [if_neg (by omega), if_neg (by omega)]
    rcases hside with ⟨hu, hlt⟩ | ⟨hu, hlt⟩
    · rw [if_pos hu, if_pos (by omega)]
    · rw [hu, if_neg (by decide), if_pos (by omega)]
  · unfold TriDense.SetTri
    rw [if_neg (by omega), if_neg (by omega)]
    rcases hside with ⟨hu, hlt⟩ | ⟨hu, hlt⟩
    · rw [if_pos ⟨hu, by omega⟩]
    · rw [if_neg (by rw [hu]; simp), if_pos ⟨hu, by omega⟩]

/-- Witness for C5 on a 2×2 upper view at coordinate (1, 0). -/
theorem tri_inactive_get_zero_set_panics_witness :
    (⟨2, Uplo.Upper, fun _ _ => (1 : ℚ)⟩ : TriDense ℚ).At 1 0 = .ok 0 ∧
      (⟨2, Uplo.Upper, fun _ _ => (1 : ℚ)⟩ : TriDense ℚ).SetTri 1 0 5 =
        .error .ErrTriangleSet ∧
      MatError.ErrTriangleSet ≠ MatError.ErrRowAccess ∧
      MatError.ErrTriangleSet ≠ MatError.ErrColAccess :=
  tri_inactive_get_zero_set_panics _ 1 0 5 (by decide) (by decide) (by decide)
    (by decide) (Or.inl ⟨rfl, by decide⟩)

/-! ### C6: symmetric write/read coherence through canonicalization -/

/-- The symmetric write leaves the dimension unchanged. -/
theorem SymDense.set_keeps_n (s : SymDense α) (r c : Nat) (v : α) :
    (s.set r c v).n = s.n := by
  unfold SymDense.set; split <;> rfl

/-- Reading back a symmetric write at the written coordinate pair. -/
theorem SymDense.at'_set_same (s : SymDense α) (r c : Nat) (v : α) :
    (s.set r c v).at' r c = v := by
  unfold SymDense.set SymDense.at'
  rcases Nat.lt_trichotomy r c with h | h | h
  · rw [if_neg (by omega)]
    simp only [if_neg (show ¬r > c by omega)]
    rw [upd_same]
  · subst h
    rw [if_neg (by omega)]
    simp only [if_neg (show ¬r > r by omega)]
    rw [upd_same]
  · rw [if_pos h]
    simp only [if_pos h]
    rw [upd_same]

/-- Reading back a symmetric write at the mirrored coordinate pair. -/
theorem SymDense.at'_set_swap (s : SymDense α) (r c : Nat) (v : α) :
    (s.set r c v).at' c r = v := by
  rw [SymDense.at'_symm, SymDense.at'_set_same]

/-- C6: for in-range r ≠ c, a symmetric write makes both mirrored checked
reads return the written value, and the write canonicalizes its coordinate
pair, so writing at (r, c) and writing at (c, r) produce the identical
view. -/
theorem sym_set_get_coherent {α : Type} (s : SymDense α) (r c : Int) (v : α)
    (hr0 : 0 ≤ r) (hrn : r < (s.n : Int)) (hc0 : 0 ≤ c) (hcn : c < (s.n : Int))
    (hne : r ≠ c) :
    ∃ s' : SymDense α, s.SetSym r c v = .ok s' ∧
      s'.At r c = .ok v ∧ s'.At c r = .ok v ∧
      s.SetSym r c v = s.SetSym c r v := by
  have hset : s.SetSym r c v = .ok (s.set r.toNat c.toNat v) := by
    unfold SymDense.SetSym
    rw [if_neg (by omega), if_neg (by omega)]
  refine ⟨s.set r.toNat c.toNat v, hset, ?_, ?_, ?_⟩
  · unfold SymDense.At
    rw [SymDense.set_keeps_n, if_neg (by omega), if_neg (by omega),
      SymDense.at'_set_same]
  · unfold SymDense.At
    rw [SymDense.set_keeps_n, if_neg (by omega), if_neg (by omega),
      SymDense.at'_set_swap]
  · have h1 : s.SetSym c r v = .ok (s.set c.toNat r.toNat v) := by
      unfold SymDense.SetSym
      rw [if_neg (by omega), if_neg (by omega)]
    rw [hset, h1]
    unfold SymDense.set
    rcases lt_or_gt_of_ne (show r.toNat ≠ c.toNat by omega) with h | h
    · rw [if_neg (by omega), if_pos (by omega : c.toNat > r.toNat)]
    · rw [if_pos h, if_neg (by omega)]

/-- Witness for C6 on a 3×3 view at coordinates (0, 2). -/
theorem sym_set_get_coherent_witness :
    ∃ s' : SymDense ℚ,
      (⟨3, fun _ _ => 0⟩ : SymDense ℚ).SetSym 0 2 7 = .ok s' ∧
      s'.At 0 2 = .ok 7 ∧ s'.At 2 0 = .ok 7 ∧
      (⟨3, fun _ _ => 0⟩ : SymDense ℚ).SetSym 0 2 7 =
        (⟨3, fun _ _ => 0⟩ : SymDense ℚ).SetSym 2 0 7 :=
  sym_set_get_coherent _ 0 2 7 (by decide) (by decide) (by decide) (by decide)
    (by decide)

/-! ### C8: bounds-checked accessors on every view kind -/

/-- C8: on every view kind the checked accessors fail with the row
out-of-range violation whenever the row index is at or beyond the
dimension, or negative, and with the column out-of-range violation whenever
the row index is in range but the column index is out of range; the vector
accessors fail on any nonzero column index. -/
theorem accessors_bounds_checked {α : Type} [Zero α]
    (m : Dense α) (x : Vector α) (s : SymDense α) (t : TriDense α)
    (r c : Int) (v : α) :
    ((r ≥ (m.rows : Int) ∨ r < 0) →
      m.At r c = .error .ErrRowAccess ∧ m.Set r c v = .error .ErrRowAccess) ∧
    (¬(r ≥ (m.rows : Int) ∨ r < 0) → (c ≥ (m.cols : Int) ∨ c < 0) →
      m.At r c = .error .ErrColAccess ∧ m.Set r c v = .error .ErrColAccess) ∧
    ((r < 0 ∨ r ≥ (x.n : Int)) →
      x.At r c = .error .ErrRowAccess ∧ x.Set r c v = .error .ErrRowAccess) ∧
    (¬(r < 0 ∨ r ≥ (x.n : Int)) → c ≠ 0 →
      x.At r c = .error .ErrColAccess ∧ x.Set r c v = .error .ErrColAccess) ∧
    ((r ≥ (s.n : Int) ∨ r < 0) →
      s.At r c = .error .ErrRowAccess ∧ s.SetSym r c v = .error .ErrRowAccess) ∧
    (¬(r ≥ (s.n : Int) ∨ r < 0) → (c ≥ (s.n : Int) ∨ c < 0) →
      s.At r c = .error .ErrColAccess ∧ s.SetSym r c v = .error .ErrColAccess) ∧
    ((r ≥ (t.n : Int) ∨ r < 0) →
      t.At r c = .error .ErrRowAccess ∧ t.SetTri r c v = .error .ErrRowAccess) ∧
    (¬(r ≥ (t.n : Int) ∨ r < 0) → (c ≥ (t.n : Int) ∨ c < 0) →
      t.At r c = .error .ErrColAccess ∧ t.SetTri r c v = .error .ErrColAccess) := by
  refine ⟨fun h => ⟨?_, ?_⟩, fun h h2 => ⟨?_, ?_⟩, fun h => ⟨?_, ?_⟩,
    fun h h2 => ⟨?_, ?_⟩, fun h => ⟨?_, ?_⟩, fun h h2 => ⟨?_, ?_⟩,
    fun h => ⟨?_, ?_⟩, fun h h2 => ⟨?_, ?_⟩⟩
  · unfold Dense.At; rw [if_pos h]
  · unfold Dense.Set; rw [if_pos h]
  · unfold Dense.At; rw [if_neg h, if_pos h2]
  · unfold Dense.Set; rw [if_neg h, if_pos h2]
  · unfold Vector.At; rw [if_pos h]
  · unfold Vector.Set; rw [if_pos h]
  · unfold Vector.At; rw [if_neg h, if_pos h2]
  · unfold Vector.Set; rw [if_neg h, if_pos h2]
  · unfold SymDense.At; rw [if_pos h]
  · unfold SymDense.SetSym; rw [if_pos h]
  · unfold SymDense.At; rw [if_neg h, if_pos h2]
  · unfold SymDense.SetSym; rw [if_neg h, if_pos h2]
  · unfold TriDense.At; rw [if_pos h]
  · unfold TriDense.SetTri; rw [if_pos h]
  · unfold TriDense.At; rw [if_neg h, if_pos h2]
  · unfold TriDense.SetTri; rw [if_neg h, if_pos h2]

/-- Witness for C8 on 2×3 dense, length-2 vector, 2×2 symmetric and 2×2
upper triangular views, at the boundary indices: the dimension itself and
-1, plus a nonzero vector column. -/
theorem accessors_bounds_checked_witness :
    ((⟨2, 3, 0, fun _ _ => (0 : ℚ)⟩ : Dense ℚ).At 2 0 = .error .ErrRowAccess ∧
      (⟨2, 3, 0, fun _ _ => (0 : ℚ)⟩ : Dense ℚ).Set 2 0 1 = .error .ErrRowAccess) ∧
    ((⟨2, 3, 0, fun _ _ => (0 : ℚ)⟩ : Dense ℚ).At (-1) 0 = .error .ErrRowAccess ∧
      (⟨2, 3, 0, fun _ _ => (0 : ℚ)⟩ : Dense ℚ).Set (-1) 0 1 = .error .ErrRowAccess) ∧
    ((⟨2, 3, 0, fun _ _ => (0 : ℚ)⟩ : Dense ℚ).At 0 3 = .error .ErrColAccess ∧
      (⟨2, 3, 0, fun _ _ => (0 : ℚ)⟩ : Dense ℚ).Set 0 3 1 = .error .ErrColAccess) ∧
    ((⟨2, 3, 0, fun _ _ => (0 : ℚ)⟩ : Dense ℚ).At 0 (-1) = .error .ErrColAccess ∧
      (⟨2, 3, 0, fun _ _ => (0 : ℚ)⟩ : Dense ℚ).Set 0 (-1) 1 = .error .ErrColAccess) ∧
    ((⟨2, fun _ => (0 : ℚ)⟩ : Vector ℚ).At 2 0 = .error .ErrRowAccess ∧
      (⟨2, fun _ => (0 : ℚ)⟩ : Vector ℚ).Set 2 0 1 = .error .ErrRowAccess) ∧
    ((⟨2, fun _ => (0 : ℚ)⟩ : Vector ℚ).At (-1) 0 = .error .ErrRowAccess ∧
      (⟨2, fun _ => (0 : ℚ)⟩ : Vector ℚ).Set (-1) 0 1 = .error .ErrRowAccess) ∧
    ((⟨2, fun _ => (0 : ℚ)⟩ : Vector ℚ).At 0 1 = .error .ErrColAccess ∧
      (⟨2, fun _ => (0 : ℚ)⟩ : Vector ℚ).Set 0 1 1 = .error .ErrColAccess) ∧
    ((⟨2, fun _ _ => (0 : ℚ)⟩ : SymDense ℚ).At 2 0 = .error .ErrRowAccess ∧
      (⟨2, fun _ _ => (0 : ℚ)⟩ : SymDense ℚ).SetSym 2 0 1 = .error .ErrRowAccess) ∧
    ((⟨2, fun _ _ => (0 : ℚ)⟩ : SymDense ℚ).At 0 (-1) = .error .ErrColAccess ∧
      (⟨2, fun _ _ => (0 : ℚ)⟩ : SymDense ℚ).SetSym 0 (-1) 1 = .error .ErrColAccess) ∧
    ((⟨2, Uplo.Upper, fun _ _ => (0 : ℚ)⟩ : TriDense ℚ).At (-1) 0 = .error .ErrRowAccess ∧
      (⟨2, Uplo.Upper, fun _ _ => (0 : ℚ)⟩ : TriDense ℚ).SetTri (-1) 0 1 = .error .ErrRowAccess) ∧
    ((⟨2, Uplo.Upper, fun _ _ => (0 : ℚ)⟩ : TriDense ℚ).At 0 2 = .error .ErrColAccess ∧
      (⟨2, Uplo.Upper, fun _ _ => (0 : ℚ)⟩ : TriDense ℚ).SetTri 0 2 1 = .error .ErrColAccess) :=
  ⟨(accessors_bounds_checked _ ⟨2, fun _ => 0⟩ ⟨2, fun _ _ => 0⟩
      ⟨2, Uplo.Upper, fun _ _ => 0⟩ 2 0 1).1 (by decide),
    (accessors_bounds_checked _ ⟨2, fun _ => 0⟩ ⟨2, fun _ _ => 0⟩
      ⟨2, Uplo.Upper, fun _ _ => 0⟩ (-1) 0 1).1 (by decide),
    (accessors_bounds_checked _ ⟨2, fun _ => 0⟩ ⟨2, fun _ _ => 0⟩
      ⟨2, Uplo.Upper, fun _ _ => 0⟩ 0 3 1).2.1 (by decide) (by decide),
    (accessors_bounds_checked _ ⟨2, fun _ => 0⟩ ⟨2, fun _ _ => 0⟩
      ⟨2, Uplo.Upper, fun _ _ => 0⟩ 0 (-1) 1).2.1 (by decide) (by decide),
    (accessors_bounds_checked (⟨2, 3, 0, fun _ _ => 0⟩ : Dense ℚ) _ ⟨2, fun _ _ => 0⟩
      ⟨2, Uplo.Upper, fun _ _ => 0⟩ 2 0 1).2.2.1 (by decide),
    (accessors_bounds_checked (⟨2, 3, 0, fun _ _ => 0⟩ : Dense ℚ) _ ⟨2, fun _ _ => 0⟩
      ⟨2, Uplo.Upper, fun _ _ => 0⟩ (-1) 0 1).2.2.1 (by decide),
    (accessors_bounds_checked (⟨2, 3, 0, fun _ _ => 0⟩ : Dense ℚ) _ ⟨2, fun _ _ => 0⟩
      ⟨2, Uplo.Upper, fun _ _ => 0⟩ 0 1 1).2.2.2.1 (by decide) (by decide),
    (accessors_bounds_checked (⟨2, 3, 0, fun _ _ => 0⟩ : Dense ℚ) ⟨2, fun _ => 0⟩ _
      ⟨2, Uplo.Upper, fun _ _ => 0⟩ 2 0 1).2.2.2.2.1 (by decide),
    (accessors_bounds_checked (⟨2, 3, 0, fun _ _ => 0⟩ : Dense ℚ) ⟨2, fun _ => 0⟩ _
      ⟨2, Uplo.Upper, fun _ _ => 0⟩ 0 (-1) 1).2.2.2.2.2.1 (by decide) (by decide),
    (accessors_bounds_checked (⟨2, 3, 0, fun _ _ => 0⟩ : Dense ℚ) ⟨2, fun _ => 0⟩
      ⟨2, fun _ _ => 0⟩ _ (-1) 0 1).2.2.2.2.2.2.1 (by decide),
    (accessors_bounds_checked (⟨2, 3, 0, fun _ _ => 0⟩ : Dense ℚ) ⟨2, fun _ => 0⟩
      ⟨2, fun _ _ => 0⟩ _ 0 2 1).2.2.2.2.2.2.2 (by decide) (by decide)⟩

/-! ### C4: copy-in by identity and the exact kernel call sequence -/

/-- C4: under the shape precondition, the Cholesky solver starts from a
copy of the right-hand side exactly when the result and the right-hand
side are not the identical object (identity tested on the object, not on
element values), and then issues exactly two triangular-solve kernel
calls: transposed then plain for an upper factor, plain then transposed
for a lower factor, each time on the result buffer. -/
theorem solve_cholesky_copy_and_calls (m : Dense ℝ) (t : TriDense ℝ)
    (b : Dense ℝ) (trsm : Bool → TriDense ℝ → Dense ℝ → Dense ℝ)
    (hshape : t.n = b.rows) :
    ((b.ptr != m.ptr) = true ↔ b.ptr ≠ m.ptr) ∧
    (b.ptr = m.ptr →
      (if b.ptr != m.ptr then (m.reuseAs b.rows b.cols).Copy b
        else m.reuseAs b.rows b.cols) = m.reuseAs b.rows b.cols) ∧
    (b.ptr ≠ m.ptr →
      (if b.ptr != m.ptr then (m.reuseAs b.rows b.cols).Copy b
        else m.reuseAs b.rows b.cols) = (m.reuseAs b.rows b.cols).Copy b) ∧
    (t.uplo = Uplo.Upper →
      m.SolveCholesky t b trsm =
        .ok (trsm false t (trsm true t
            (if b.ptr != m.ptr then (m.reuseAs b.rows b.cols).Copy b
              else m.reuseAs b.rows b.cols)),
          b.ptr != m.ptr, [⟨true, Uplo.Upper⟩, ⟨false, Uplo.Upper⟩])) ∧
    (t.uplo = Uplo.Lower →
      m.SolveCholesky t b trsm =
        .ok (trsm true t (trsm false t
            (if b.ptr != m.ptr then (m.reuseAs b.rows b.cols).Copy b
              else m.reuseAs b.rows b.cols)),
          b.ptr != m.ptr, [⟨false, Uplo.Lower⟩, ⟨true, Uplo.Lower⟩])) := by
  refine ⟨bne_iff_ne, fun h => ?_, fun h => ?_, fun hu => ?_, fun hu => ?_⟩
  · rw [if_neg (by simp [h])]
  · rw [if_pos (by simp [bne_iff_ne]; exact h)]
  · unfold Dense.SolveCholesky
    rw [if_neg (by omega)]
    rw [hu]
  · unfold Dense.SolveCholesky
    rw [if_neg (by omega)]
    rw [hu]

/-- Witness for C4: a 2×2 upper factor against a 2×1 right-hand side with
distinct object identities, under the kernel that returns its dense operand
unchanged. -/
theorem solve_cholesky_copy_and_calls_witness :
    (((⟨2, 1, 1, fun _ _ => 0⟩ : Dense ℝ).ptr !=
        (⟨0, 0, 0, fun _ _ => 0⟩ : Dense ℝ).ptr) = true ↔
      (⟨2, 1, 1, fun _ _ => 0⟩ : Dense ℝ).ptr ≠
        (⟨0, 0, 0, fun _ _ => 0⟩ : Dense ℝ).ptr) ∧
    (Dense.SolveCholesky ⟨0, 0, 0, fun _ _ => 0⟩
        ⟨2, Uplo.Upper, fun _ _ => 1⟩ ⟨2, 1, 1, fun _ _ => 0⟩
        (fun _ _ d => d) =
      .ok ((⟨0, 0, 0, fun _ _ => 0⟩ : Dense ℝ).reuseAs 2 1 |>.Copy
            ⟨2, 1, 1, fun _ _ => 0⟩,
        true, [⟨true, Uplo.Upper⟩, ⟨false, Uplo.Upper⟩])) := by
  have h := solve_cholesky_copy_and_calls (⟨0, 0, 0, fun _ _ => 0⟩ : Dense ℝ)
    (⟨2, Uplo.Upper, fun _ _ => 1⟩ : TriDense ℝ)
    (⟨2, 1, 1, fun _ _ => 0⟩ : Dense ℝ) (fun _ _ d => d) rfl
  exact ⟨h.1, h.2.2.2.1 rfl⟩

/-! ### C7: fatal shape and orientation validation in both solvers -/

/-- C7: both solvers panic with the shape violation when the right-hand
side's row count differs from the triangular operand's dimension, and with
the invalid-triangle violation when the orientation tag is neither upper
nor lower; neither condition produces an ok result. -/
theorem solvers_validate_fatally (m : Dense ℝ) (t : TriDense ℝ)
    (b : Dense ℝ) (trans : Bool)
    (trsm : Bool → TriDense ℝ → Dense ℝ → Dense ℝ) :
    (t.n ≠ b.rows →
      m.SolveCholesky t b trsm = .error .ErrShape ∧
      m.SolveTri t trans b trsm = .error .ErrShape) ∧
    (t.n = b.rows → t.uplo ≠ Uplo.Upper → t.uplo ≠ Uplo.Lower →
      m.SolveCholesky t b trsm = .error .BadTriangle ∧
      m.SolveTri t trans b trsm = .error .BadTriangle) := by
  constructor
  · intro h
    constructor
    · unfold Dense.SolveCholesky; rw [if_pos h]
    · unfold Dense.SolveTri; rw [if_pos h]
  · intro h hu hl
    have hz : t.uplo = Uplo.Zero := by
      cases hzz : t.uplo
      · exact absurd hzz hu
      · exact absurd hzz hl
      · rfl
    constructor
    · unfold Dense.SolveCholesky; rw [if_neg (by omega), hz]
    · unfold Dense.SolveTri; rw [if_neg (by omega), hz]

/-- Witness for C7: a dimension-2 triangular operand against a 3-row
right-hand side, and a matching pair with the zero orientation tag. -/
theorem solvers_validate_fatally_witness :
    (Dense.SolveCholesky ⟨0, 0, 0, fun _ _ => 0⟩
        ⟨2, Uplo.Upper, fun _ _ => 1⟩ ⟨3, 1, 1, fun _ _ => 0⟩
        (fun _ _ d => d) = .error .ErrShape ∧
      Dense.SolveTri ⟨0, 0, 0, fun _ _ => 0⟩ ⟨2, Uplo.Upper, fun _ _ => 1⟩
        false ⟨3, 1, 1, fun _ _ => 0⟩ (fun _ _ d => d) = .error .ErrShape) ∧
    (Dense.SolveCholesky ⟨0, 0, 0, fun _ _ => 0⟩
        ⟨2, Uplo.Zero, fun _ _ => 1⟩ ⟨2, 1, 1, fun _ _ => 0⟩
        (fun _ _ d => d) = .error .BadTriangle ∧
      Dense.SolveTri ⟨0, 0, 0, fun _ _ => 0⟩ ⟨2, Uplo.Zero, fun _ _ => 1⟩
        false ⟨2, 1, 1, fun _ _ => 0⟩ (fun _ _ d => d) = .error .BadTriangle) :=
  ⟨(solvers_validate_fatally ⟨0, 0, 0, fun _ _ => 0⟩ ⟨2, Uplo.Upper, fun _ _ => 1⟩
      ⟨3, 1, 1, fun _ _ => 0⟩ false (fun _ _ d => d)).1 (by decide),
    (solvers_validate_fatally ⟨0, 0, 0, fun _ _ => 0⟩ ⟨2, Uplo.Zero, fun _ _ => 1⟩
      ⟨2, 1, 1, fun _ _ => 0⟩ false (fun _ _ d => d)).2 rfl (by decide) (by decide)⟩

/-! ### Factorization loop lemmas, lower branch -/

theorem TriDense.set_n (t : TriDense α) (r c : Nat) (v : α) :
    (t.set r c v).n = t.n := rfl

theorem TriDense.set_uplo (t : TriDense α) (r c : Nat) (v : α) :
    (t.set r c v).uplo = t.uplo := rfl

theorem TriDense.set_data (t : TriDense α) (r c : Nat) (v : α) :
    (t.set r c v).data = upd t.data r c v := rfl

theorem cholInnerL_a (j k : Nat) (s : CholSt) :
    (cholInnerL j k s).1.a = s.a := by
  induction k with
  | zero => rfl
  | succ k ih => simp only [cholInnerL]; exact ih

theorem cholInnerL_n (j k : Nat) (s : CholSt) :
    (cholInnerL j k s).1.t.n = s.t.n := by
  induction k with
  | zero => rfl
  | succ k ih => simp only [cholInnerL, TriDense.set_n]; exact ih

theorem cholInnerL_uplo (j k : Nat) (s : CholSt) :
    (cholInnerL j k s).1.t.uplo = s.t.uplo := by
  induction k with
  | zero => rfl
  | succ k ih => simp only [cholInnerL, TriDense.set_uplo]; exact ih

theorem cholInnerL_frame (j k : Nat) (s : CholSt) (r c : Nat)
    (h : ¬(r = j ∧ c < k)) :
    (cholInnerL j k s).1.t.data r c = s.t.data r c := by
  induction k with
  | zero => rfl
  | succ k ih =>
    simp only [cholInnerL, TriDense.set_data]
    rw [upd_other _ _ _ _ _ _ (by omega)]
    exact ih (by omega)

theorem cholInnerL_d (j k : Nat) (s : CholSt) :
    (cholInnerL j k s).2 = ∑ i ∈ Finset.range k,
      (cholInnerL j k s).1.t.data j i * (cholInnerL j k s).1.t.data j i := by
  induction k with
  | zero => simp [cholInnerL]
  | succ k ih =>
    rw [Finset.sum_range_succ]
    simp only [cholInnerL, TriDense.set_data]
    rw [upd_same]
    congr 1
    rw [ih]
    refine Finset.sum_congr rfl fun i hi => ?_
    rw [upd_other _ _ _ _ _ _ (by simp at hi; omega)]

theorem cholInnerL_eqs (j k : Nat) (s : CholSt) (hkj : k ≤ j)
    (hdiag : ∀ i, i < k → s.t.data i i ≠ 0) :
    ∀ i, i < k → ∑ i' ∈ Finset.range (i + 1),
      (cholInnerL j k s).1.t.data j i' * (cholInnerL j k s).1.t.data i i' =
        s.a.at' j i := by
  induction k with
  | zero => intro i hi; omega
  | succ k ih =>
    intro i hi
    have hkj' : k < j := by omega
    by_cases hik : i < k
    · have hold := ih (by omega) (fun i' hi' => hdiag i' (by omega)) i hik
      rw [← hold]
      refine Finset.sum_congr rfl fun i' hi' => ?_
      simp only [cholInnerL, TriDense.set_data]
      rw [upd_other _ _ _ _ _ _ (by simp at hi'; omega),
        upd_other _ _ _ _ _ _ (by omega)]
    · have hik' : k = i := by omega
      subst hik'
      simp only [cholInnerL, TriDense.set_data]
      rw [Finset.sum_range_succ, upd_same,
        upd_other _ _ _ _ _ _ (by omega)]
      have hrow : ∀ i', i' < k →
          upd (cholInnerL j k s).1.t.data j k
            (((cholInnerL j k s).1.a.at' j k -
              ∑ x ∈ Finset.range k,
                (cholInnerL j k s).1.t.data k x * (cholInnerL j k s).1.t.data j x) /
              (cholInnerL j k s).1.t.at' k k) j i' = (cholInnerL j k s).1.t.data j i' :=
        fun i' hi' => upd_other _ _ _ _ _ _ (by omega)
      have hrowk : ∀ i', i' ≤ k →
          upd (cholInnerL j k s).1.t.data j k
            (((cholInnerL j k s).1.a.at' j k -
              ∑ x ∈ Finset.range k,
                (cholInnerL j k s).1.t.data k x * (cholInnerL j k s).1.t.data j x) /
              (cholInnerL j k s).1.t.at' k k) k i' = (cholInnerL j k s).1.t.data k i' :=
        fun i' hi' => upd_other _ _ _ _ _ _ (by omega)
      rw [Finset.sum_congr rfl (fun i' hi' => by
        rw [hrow i' (by simp at hi'; omega), hrowk i' (by simp at hi'; omega)])]
      have hdk : (cholInnerL j k s).1.t.at' k k = s.t.data k k := by
        rw [TriDense.at'_diag, cholInnerL_frame j k s k k (by omega)]
      have hkk : (cholInnerL j k s).1.t.data k k = s.t.data k k :=
        cholInnerL_frame j k s k k (by omega)
      rw [hdk, hkk, div_mul_cancel₀ _ (hdiag k (by omega)), cholInnerL_a]
      have hcomm : ∑ x ∈ Finset.range k,
          (cholInnerL j k s).1.t.data k x * (cholInnerL j k s).1.t.data j x =
          ∑ i' ∈ Finset.range k,
            (cholInnerL j k s).1.t.data j i' * (cholInnerL j k s).1.t.data k i' :=
        Finset.sum_congr rfl fun i' _ => mul_comm _ _
      rw [hcomm]
      ring

theorem cholColL_a (j : Nat) (s : CholSt) : (cholColL j s).2.a = s.a := by
  simp only [cholColL]
  split <;> exact cholInnerL_a j j s

theorem cholColL_false_iff (j : Nat) (s : CholSt) :
    (cholColL j s).1 = false ↔
      (cholInnerL j j s).1.a.at' j j - (cholInnerL j j s).2 ≤ 0 := by
  simp only [cholColL]
  by_cases h : (cholInnerL j j s).1.a.at' j j - (cholInnerL j j s).2 ≤ 0
  · rw [if_pos h]; simpa using h
  · rw [if_neg h]; simpa using h

theorem cholColL_false_eq (j : Nat) (s : CholSt)
    (h : (cholColL j s).1 = false) :
    cholColL j s = (false, ⟨s.a, TriDense.Reset⟩) := by
  have hd := (cholColL_false_iff j s).mp h
  simp only [cholColL]
  rw [if_pos hd, cholInnerL_a]

theorem cholColL_true_eq (j : Nat) (s : CholSt)
    (h : (cholColL j s).1 = true) :
    cholColL j s = (true, ⟨s.a, (cholInnerL j j s).1.t.set j j
      (Real.sqrt (s.a.at' j j - (cholInnerL j j s).2))⟩) := by
  have hd : ¬((cholInnerL j j s).1.a.at' j j - (cholInnerL j j s).2 ≤ 0) := by
    intro hc
    rw [(cholColL_false_iff j s).mpr hc] at h
    exact absurd h (by simp)
  simp only [cholColL]
  rw [if_neg hd, max_eq_left (le_of_lt (lt_of_not_le hd)), cholInnerL_a]

theorem cholColL_true_pivot_pos (j : Nat) (s : CholSt)
    (h : (cholColL j s).1 = true) :
    0 < s.a.at' j j - (cholInnerL j j s).2 := by
  have hd : ¬((cholInnerL j j s).1.a.at' j j - (cholInnerL j j s).2 ≤ 0) := by
    intro hc
    rw [(cholColL_false_iff j s).mpr hc] at h
    exact absurd h (by simp)
  rw [cholInnerL_a] at hd
  exact lt_of_not_le hd

theorem cholColsL_a (m : Nat) (s : CholSt) : (cholColsL m s).2.a = s.a := by
  induction m with
  | zero => rfl
  | succ m ih =>
    simp only [cholColsL]
    split
    · rw [cholColL_a]; exact ih
    · exact ih

theorem cholColsL_false_reset (m : Nat) (s : CholSt)
    (h : (cholColsL m s).1 = false) :
    (cholColsL m s).2.t = TriDense.Reset := by
  induction m with
  | zero => exact absurd h (by simp [cholColsL])
  | succ m ih =>
    simp only [cholColsL] at h ⊢
    by_cases hp : (cholColsL m s).1 = true
    · rw [if_pos hp] at h ⊢
      rw [cholColL_false_eq m (cholColsL m s).2 h]
    · rw [if_neg hp] at h ⊢
      exact ih h

theorem cholColsL_false_iff (m : Nat) (s : CholSt) :
    (cholColsL m s).1 = false ↔
      ∃ j, j < m ∧ (cholColsL j s).1 = true ∧ cholPivotL s j ≤ 0 := by
  induction m with
  | zero => simp [cholColsL]
  | succ m ih =>
    simp only [cholColsL]
    by_cases hp : (cholColsL m s).1 = true
    · rw [if_pos hp]
      constructor
      · intro h
        refine ⟨m, by omega, hp, ?_⟩
        have hd := (cholColL_false_iff m (cholColsL m s).2).mp h
        rw [cholInnerL_a] at hd
        simpa [cholPivotL, cholInnerL_a] using hd
      · rintro ⟨j, hj, hflag, hpiv⟩
        rcases Nat.lt_or_ge j m with hjm | hjm
        · exact absurd (ih.mpr ⟨j, hjm, hflag, hpiv⟩) (by simp [hp])
        · have hjm' : j = m := by omega
          subst hjm'
          refine (cholColL_false_iff j (cholColsL j s).2).mpr ?_
          rw [cholInnerL_a]
          simpa [cholPivotL, cholInnerL_a] using hpiv
    · have hfalse : (cholColsL m s).1 = false := by
        cases hflag : (cholColsL m s).1
        · rfl
        · exact absurd hflag hp
      rw [if_neg hp]
      constructor
      · intro _
        obtain ⟨j, hj, h1, h2⟩ := ih.mp hfalse
        exact ⟨j, by omega, h1, h2⟩
      · intro _
        exact hfalse

theorem cholColsL_success_inv (m : Nat) (s0 : CholSt)
    (h : (cholColsL m s0).1 = true) :
    (cholColsL m s0).2.t.n = s0.t.n ∧ (cholColsL m s0).2.t.uplo = s0.t.uplo ∧
    (∀ r c, ¬(r < m ∧ c ≤ r) → (cholColsL m s0).2.t.data r c = s0.t.data r c) ∧
    (∀ j k, j < m → k ≤ j → ∑ i ∈ Finset.range (k + 1),
        (cholColsL m s0).2.t.data j i * (cholColsL m s0).2.t.data k i =
          s0.a.at' j k) ∧
    (∀ j, j < m → 0 < (cholColsL m s0).2.t.data j j) := by
  induction m with
  | zero =>
    exact ⟨rfl, rfl, fun _ _ _ => rfl, fun j k hj _ => absurd hj (by omega),
      fun j hj => absurd hj (by omega)⟩
  | succ m ih =>
    have hp : (cholColsL m s0).1 = true := by
      by_contra hc
      have hfalse : (cholColsL m s0).1 = false := by
        cases hflag : (cholColsL m s0).1
        · rfl
        · exact absurd hflag hc
      simp only [cholColsL] at h
      rw [if_neg (by simp [hfalse])] at h
      rw [hfalse] at h
      exact absurd h (by simp)
    obtain ⟨ihn, ihu, ihfr, iheq, ihpos⟩ := ih hp
    have hstep : cholColsL (m + 1) s0 = cholColL m (cholColsL m s0).2 := by
      simp only [cholColsL]; rw [if_pos hp]
    have hcflag : (cholColL m (cholColsL m s0).2).1 = true := by
      rw [← hstep]; exact h
    have htrue := cholColL_true_eq m (cholColsL m s0).2 hcflag
    have hdpos := cholColL_true_pivot_pos m (cholColsL m s0).2 hcflag
    have hXa : (cholColsL m s0).2.a = s0.a := cholColsL_a m s0
    have hinner_eqs := cholInnerL_eqs m m (cholColsL m s0).2 (le_refl m)
      (fun i hi => ne_of_gt (ihpos i hi))
    rw [hXa] at hinner_eqs
    have hinner_d := cholInnerL_d m m (cholColsL m s0).2
    have hframe : ∀ r c : Nat, ¬(r = m ∧ c < m) →
        (cholInnerL m m (cholColsL m s0).2).1.t.data r c =
          (cholColsL m s0).2.t.data r c :=
      fun r c hh => cholInnerL_frame m m (cholColsL m s0).2 r c hh
    rw [hstep, htrue]
    dsimp only
    refine ⟨?_, ?_, ?_, ?_, ?_⟩
    · rw [TriDense.set_n, cholInnerL_n, ihn]
    · rw [TriDense.set_uplo, cholInnerL_uplo, ihu]
    · intro r c hrc
      rw [TriDense.set_data, upd_other _ _ _ _ _ _ (by omega),
        hframe r c (by omega), ihfr r c (by omega)]
    · intro j k hj hk
      rw [TriDense.set_data]
      by_cases hjm : j < m
      · rw [Finset.sum_congr rfl (fun i hi => by
          rw [upd_other _ _ _ _ _ _
              (by have := Finset.mem_range.mp hi; omega),
            upd_other _ _ _ _ _ _
              (by have := Finset.mem_range.mp hi; omega),
            hframe j i (by omega), hframe k i (by omega)])]
        exact iheq j k hjm hk
      · have hjm' : j = m := by omega
        by_cases hkm : k < m
        · rw [Finset.sum_congr rfl (fun i hi => by
            rw [upd_other _ _ _ _ _ _
                (by have := Finset.mem_range.mp hi; omega),
              upd_other _ _ _ _ _ _
                (by have := Finset.mem_range.mp hi; omega)])]
          simp only [hjm']
          exact hinner_eqs k hkm
        · have hkm' : k = m := by omega
          simp only [hjm', hkm']
          rw [Finset.sum_range_succ]
          rw [Finset.sum_congr rfl (fun i hi => by
            rw [upd_other _ _ _ _ _ _
              (by have := Finset.mem_range.mp hi; omega)])]
          rw [upd_same, ← hinner_d, Real.mul_self_sqrt (le_of_lt hdpos), hXa]
          ring
    · intro j hj
      rw [TriDense.set_data]
      by_cases hjm : j < m
      · rw [upd_other _ _ _ _ _ _ (by omega), hframe j j (by omega)]
        exact ihpos j hjm
      · have hjm' : j = m := by omega
        simp only [hjm', upd_same]
        exact Real.sqrt_pos.mpr hdpos

/-! ### Linear-algebra helpers for the positive-definite argument -/

theorem sum_range_truncate (f : ℕ → ℝ) (a b : ℕ) (hab : a ≤ b)
    (hz : ∀ i, a ≤ i → i < b → f i = 0) :
    ∑ i ∈ Finset.range b, f i = ∑ i ∈ Finset.range a, f i :=
  (Finset.sum_subset (Finset.range_subset.mpr hab) fun x hx hnx =>
    hz x (by simpa using hnx) (by simpa using hx)).symm

/-- The Gram identity for a lower-triangular array whose rows satisfy the
Cholesky equations against a symmetric array: row r dotted with row c
recovers the (r, c) entry. -/
theorem lower_gram (D A : ℕ → ℕ → ℝ) (m : ℕ)
    (hsym : ∀ r c, A r c = A c r)
    (heq : ∀ j k, j < m → k ≤ j →
      ∑ i ∈ Finset.range (k + 1), D j i * D k i = A j k)
    (r c : Fin m) :
    (∑ k : Fin m, (if (r : ℕ) < (k : ℕ) then 0 else D r k) *
      (if (c : ℕ) < (k : ℕ) then 0 else D c k)) = A r c := by
  rcases le_total (c : ℕ) (r : ℕ) with hcr | hrc
  · rw [Fin.sum_univ_eq_sum_range
      (fun k => (if (r : ℕ) < k then 0 else D r k) *
        (if (c : ℕ) < k then 0 else D c k)) m]
    rw [sum_range_truncate _ ((c : ℕ) + 1) m (by omega) (fun i hi1 hi2 => by
      have hz : (if (c : ℕ) < i then (0 : ℝ) else D c i) = 0 :=
        if_pos (by omega)
      rw [hz, mul_zero])]
    rw [Finset.sum_congr rfl (fun k hk => by
      have hk' := Finset.mem_range.mp hk
      rw [if_neg (by omega), if_neg (by omega)])]
    exact heq r c r.isLt hcr
  · rw [Fin.sum_univ_eq_sum_range
      (fun k => (if (r : ℕ) < k then 0 else D r k) *
        (if (c : ℕ) < k then 0 else D c k)) m]
    rw [sum_range_truncate _ ((r : ℕ) + 1) m (by omega) (fun i hi1 hi2 => by
      have hz : (if (r : ℕ) < i then (0 : ℝ) else D r i) = 0 :=
        if_pos (by omega)
      rw [hz, zero_mul])]
    rw [Finset.sum_congr rfl (fun k hk => by
      have hk' := Finset.mem_range.mp hk
      rw [if_neg (by omega), if_neg (by omega),
        mul_comm (D (r : ℕ) k) (D (c : ℕ) k)])]
    rw [heq c r c.isLt hrc, hsym]

/-- The factor rows assembled as a lower-triangular Fin matrix are block
triangular in the dual order. -/
theorem lowerTri_blockTriangular (D : ℕ → ℕ → ℝ) (m : ℕ) :
    (Matrix.of fun k i : Fin m =>
      if (k : ℕ) < (i : ℕ) then (0 : ℝ) else D k i).BlockTriangular
        OrderDual.toDual := by
  intro i j hij
  have hlt : i < j := hij
  exact if_pos (show (i : ℕ) < (j : ℕ) from hlt)

/-- A lower-triangular factor with positive diagonal has positive
determinant. -/
theorem lowerTri_det_pos (D : ℕ → ℕ → ℝ) (m : ℕ)
    (hpos : ∀ j, j < m → 0 < D j j) :
    0 < (Matrix.of fun k i : Fin m =>
      if (k : ℕ) < (i : ℕ) then (0 : ℝ) else D k i).det := by
  rw [Matrix.det_of_lowerTriangular _ (lowerTri_blockTriangular D m)]
  refine Finset.prod_pos fun i _ => ?_
  show 0 < (if (i : ℕ) < (i : ℕ) then (0 : ℝ) else D i i)
  rw [if_neg (lt_irrefl _)]
  exact hpos i i.isLt

/-- The border equations state exactly that the factor applied to the new
row solves the border column. -/
theorem lowerTri_solve_border (D α : ℕ → ℕ → ℝ) (m : ℕ)
    (hw : ∀ i, i < m → ∑ i' ∈ Finset.range (i + 1), D m i' * D i i' = α m i) :
    Matrix.mulVec (Matrix.of fun k i : Fin m =>
        if (k : ℕ) < (i : ℕ) then (0 : ℝ) else D k i)
      (fun i : Fin m => D m (i : ℕ)) = fun k : Fin m => α m (k : ℕ) := by
  funext k
  show ∑ i : Fin m,
      (if (k : ℕ) < (i : ℕ) then (0 : ℝ) else D k i) * D m (i : ℕ) = α m (k : ℕ)
  calc ∑ i : Fin m,
      (if (k : ℕ) < (i : ℕ) then (0 : ℝ) else D k i) * D m (i : ℕ)
      = ∑ i ∈ Finset.range m, (if (k : ℕ) < i then (0 : ℝ) else D k i) * D m i :=
        Fin.sum_univ_eq_sum_range
          (fun i => (if (k : ℕ) < i then (0 : ℝ) else D k i) * D m i) m
    _ = ∑ i ∈ Finset.range ((k : ℕ) + 1),
        (if (k : ℕ) < i then (0 : ℝ) else D k i) * D m i :=
        sum_range_truncate _ _ m (by omega) (fun i h1 h2 => by
          rw [if_pos (by omega), zero_mul])
    _ = ∑ i ∈ Finset.range ((k : ℕ) + 1), D m i * D (k : ℕ) i :=
        Finset.sum_congr rfl fun i hi => by
          have hi' := Finset.mem_range.mp hi
          rw [if_neg (by omega), mul_comm]
    _ = α m (k : ℕ) := hw k k.isLt

/-- The Gram product of the factor rows recovers the leading block. -/
theorem lowerTri_gram (D α : ℕ → ℕ → ℝ) (m : ℕ)
    (hsym : ∀ r c, α r c = α c r)
    (heq : ∀ j k, j < m → k ≤ j →
      ∑ i ∈ Finset.range (k + 1), D j i * D k i = α j k) :
    (Matrix.of fun k i : Fin m =>
        if (k : ℕ) < (i : ℕ) then (0 : ℝ) else D k i) *
      (Matrix.of fun k i : Fin m =>
        if (k : ℕ) < (i : ℕ) then (0 : ℝ) else D k i)ᵀ =
      Matrix.of fun i j : Fin m => α (i : ℕ) (j : ℕ) := by
  ext r c
  rw [Matrix.mul_apply]
  show (∑ k : Fin m, (if (r : ℕ) < (k : ℕ) then (0 : ℝ) else D r k) *
    (if (c : ℕ) < (k : ℕ) then (0 : ℝ) else D c k)) = α (r : ℕ) (c : ℕ)
  exact lower_gram D α m hsym heq r c

/-- Evaluating the quadratic form of the full matrix at the vector that is
`y` on the first m coordinates, 1 at coordinate m, and 0 above: it splits
into the leading-block form, twice the border term, and the corner entry. -/
theorem quadform_split (n : ℕ) (α : ℕ → ℕ → ℝ) (m : ℕ) (hm : m < n)
    (hsym : ∀ r c, α r c = α c r) (y : Fin m → ℝ) :
    Matrix.dotProduct
      (fun i : Fin n => if h : (i : ℕ) < m then y ⟨i, h⟩
        else if (i : ℕ) = m then 1 else 0)
      (Matrix.mulVec (Matrix.of fun i j : Fin n => α (i : ℕ) (j : ℕ))
        (fun i : Fin n => if h : (i : ℕ) < m then y ⟨i, h⟩
          else if (i : ℕ) = m then 1 else 0)) =
      Matrix.dotProduct y
          (Matrix.mulVec (Matrix.of fun i j : Fin m => α (i : ℕ) (j : ℕ)) y) +
        Matrix.dotProduct y (fun k : Fin m => α m (k : ℕ)) +
        Matrix.dotProduct y (fun k : Fin m => α m (k : ℕ)) + α m m := by
  classical
  obtain ⟨xN, hxN⟩ : ∃ xN : ℕ → ℝ,
      ∀ i : ℕ, xN i = if h : i < m then y ⟨i, h⟩ else if i = m then 1 else 0 :=
    ⟨_, fun _ => rfl⟩
  have hxNlt : ∀ i : Fin m, xN (i : ℕ) = y i := fun i => by
    rw [hxN, dif_pos i.isLt]
  have hxNm : xN m = 1 := by rw [hxN, dif_neg (lt_irrefl m), if_pos rfl]
  have hxNgt : ∀ i, m < i → xN i = 0 := fun i hi => by
    rw [hxN, dif_neg (by omega), if_neg (by omega)]
  have hxeq : ∀ i : Fin n,
      (if h : (i : ℕ) < m then y ⟨i, h⟩ else if (i : ℕ) = m then 1 else 0) =
        xN (i : ℕ) := fun i => (hxN _).symm
  have hmul : ∀ i : Fin n,
      Matrix.mulVec (Matrix.of fun i j : Fin n => α (i : ℕ) (j : ℕ))
        (fun i : Fin n => if h : (i : ℕ) < m then y ⟨i, h⟩
          else if (i : ℕ) = m then 1 else 0) i =
        ∑ j ∈ Finset.range n, α (i : ℕ) j * xN j := by
    intro i
    show ∑ j : Fin n, α (i : ℕ) (j : ℕ) *
        (if h : (j : ℕ) < m then y ⟨j, h⟩ else if (j : ℕ) = m then 1 else 0) = _
    calc ∑ j : Fin n, α (i : ℕ) (j : ℕ) *
        (if h : (j : ℕ) < m then y ⟨j, h⟩ else if (j : ℕ) = m then 1 else 0)
        = ∑ j : Fin n, (fun j : ℕ => α (i : ℕ) j * xN j) (j : ℕ) :=
          Finset.sum_congr rfl fun j _ => by rw [hxeq j]
      _ = ∑ j ∈ Finset.range n, α (i : ℕ) j * xN j :=
          Fin.sum_univ_eq_sum_range (fun j => α (i : ℕ) j * xN j) n
  obtain ⟨T, hT⟩ : ∃ T : ℕ → ℝ,
      ∀ i : ℕ, T i = ∑ j ∈ Finset.range n, α i j * xN j := ⟨_, fun _ => rfl⟩
  have hinner : ∀ i : ℕ, T i =
      (∑ j ∈ Finset.range m, α i j * xN j) + α i m := by
    intro i
    rw [hT]
    rw [sum_range_truncate _ (m + 1) n (by omega) (fun j h1 h2 => by
      rw [hxNgt j (by omega), mul_zero])]
    rw [Finset.sum_range_succ, hxNm, mul_one]
  have hmain : Matrix.dotProduct
      (fun i : Fin n => if h : (i : ℕ) < m then y ⟨i, h⟩
        else if (i : ℕ) = m then 1 else 0)
      (Matrix.mulVec (Matrix.of fun i j : Fin n => α (i : ℕ) (j : ℕ))
        (fun i : Fin n => if h : (i : ℕ) < m then y ⟨i, h⟩
          else if (i : ℕ) = m then 1 else 0)) =
      (∑ i ∈ Finset.range m, xN i * ∑ j ∈ Finset.range m, α i j * xN j) +
        (∑ i ∈ Finset.range m, xN i * α i m) +
        (∑ j ∈ Finset.range m, α m j * xN j) + α m m := by
    trans (∑ i : Fin n, (fun i : ℕ => xN i * T i) (i : ℕ))
    · exact Finset.sum_congr rfl fun i _ => by
        simp only [hmul i, hxeq i]
        rw [hT (i : ℕ)]
    trans (∑ i ∈ Finset.range n, xN i * T i)
    · exact Fin.sum_univ_eq_sum_range (fun i => xN i * T i) n
    trans (∑ i ∈ Finset.range (m + 1), xN i * T i)
    · exact sum_range_truncate _ (m + 1) n (by omega) (fun i h1 h2 => by
        rw [hxNgt i (by omega), zero_mul])
    trans ((∑ i ∈ Finset.range m, xN i * T i) + xN m * T m)
    · exact Finset.sum_range_succ _ m
    trans ((∑ i ∈ Finset.range m,
        xN i * ((∑ j ∈ Finset.range m, α i j * xN j) + α i m)) +
        xN m * ((∑ j ∈ Finset.range m, α m j * xN j) + α m m))
    · congr 1
      · exact Finset.sum_congr rfl fun i _ => by rw [hinner i]
      · rw [hinner m]
    rw [hxNm, one_mul]
    rw [Finset.sum_congr rfl fun i (_ : i ∈ Finset.range m) =>
      mul_add (xN i) (∑ j ∈ Finset.range m, α i j * xN j) (α i m)]
    rw [Finset.sum_add_distrib]
    ring
  have hB : ∑ i ∈ Finset.range m, xN i * ∑ j ∈ Finset.range m, α i j * xN j =
      Matrix.dotProduct y
        (Matrix.mulVec (Matrix.of fun i j : Fin m => α (i : ℕ) (j : ℕ)) y) := by
    have h1 : ∀ i : ℕ, ∑ j ∈ Finset.range m, α i j * xN j =
        ∑ j : Fin m, α i (j : ℕ) * y j := fun i => by
      rw [← Fin.sum_univ_eq_sum_range (fun j => α i j * xN j) m]
      exact Finset.sum_congr rfl fun j _ => by rw [hxNlt j]
    calc ∑ i ∈ Finset.range m, xN i * ∑ j ∈ Finset.range m, α i j * xN j
        = ∑ i : Fin m, (fun i : ℕ =>
            xN i * ∑ j ∈ Finset.range m, α i j * xN j) (i : ℕ) :=
          (Fin.sum_univ_eq_sum_range
            (fun i => xN i * ∑ j ∈ Finset.range m, α i j * xN j) m).symm
      _ = ∑ i : Fin m, y i * ∑ j : Fin m, α (i : ℕ) (j : ℕ) * y j :=
          Finset.sum_congr rfl fun i _ => by simp only [hxNlt i, h1 (i : ℕ)]
      _ = Matrix.dotProduct y
          (Matrix.mulVec (Matrix.of fun i j : Fin m => α (i : ℕ) (j : ℕ)) y) :=
          rfl
  have hT1 : ∑ i ∈ Finset.range m, xN i * α i m =
      Matrix.dotProduct y (fun k : Fin m => α m (k : ℕ)) := by
    calc ∑ i ∈ Finset.range m, xN i * α i m
        = ∑ i : Fin m, (fun i : ℕ => xN i * α i m) (i : ℕ) :=
          (Fin.sum_univ_eq_sum_range (fun i => xN i * α i m) m).symm
      _ = ∑ i : Fin m, y i * α m (i : ℕ) :=
          Finset.sum_congr rfl fun i _ => by simp only [hxNlt i, hsym (i : ℕ) m]
      _ = Matrix.dotProduct y (fun k : Fin m => α m (k : ℕ)) := rfl
  have hT2 : ∑ j ∈ Finset.range m, α m j * xN j =
      Matrix.dotProduct y (fun k : Fin m => α m (k : ℕ)) := by
    calc ∑ j ∈ Finset.range m, α m j * xN j
        = ∑ j : Fin m, (fun j : ℕ => α m j * xN j) (j : ℕ) :=
          (Fin.sum_univ_eq_sum_range (fun j => α m j * xN j) m).symm
      _ = ∑ j : Fin m, y j * α m (j : ℕ) :=
          Finset.sum_congr rfl fun j _ => by
            simp only [hxNlt j]
            exact mul_comm _ _
      _ = Matrix.dotProduct y (fun k : Fin m => α m (k : ℕ)) := rfl
  rw [hmain, hB, hT1, hT2]

/-- If the factor equations hold below row m against a symmetric array
whose full matrix is positive definite, then the diagonal candidate at
column m is strictly positive. -/
theorem posdef_chol_pivot_pos (n : ℕ) (α D : ℕ → ℕ → ℝ) (m : ℕ)
    (hm : m < n) (hsym : ∀ r c, α r c = α c r)
    (hpd : (Matrix.of fun i j : Fin n => α (i : ℕ) (j : ℕ)).PosDef)
    (heq : ∀ j k, j < m → k ≤ j →
      ∑ i ∈ Finset.range (k + 1), D j i * D k i = α j k)
    (hw : ∀ i, i < m → ∑ i' ∈ Finset.range (i + 1), D m i' * D i i' = α m i)
    (hpos : ∀ j, j < m → 0 < D j j) :
    0 < α m m - ∑ i ∈ Finset.range m, D m i * D m i := by
  classical
  obtain ⟨L, hL⟩ : ∃ L : Matrix (Fin m) (Fin m) ℝ,
      L = Matrix.of fun k i : Fin m =>
        if (k : ℕ) < (i : ℕ) then (0 : ℝ) else D k i := ⟨_, rfl⟩
  obtain ⟨w, hwd⟩ : ∃ w : Fin m → ℝ, w = fun i : Fin m => D m (i : ℕ) :=
    ⟨_, rfl⟩
  have hdet : 0 < L.det := by rw [hL]; exact lowerTri_det_pos D m hpos
  have hunitT : IsUnit (Lᵀ).det := by
    rw [Matrix.det_transpose]
    exact isUnit_iff_ne_zero.mpr (ne_of_gt hdet)
  have hLw : Matrix.mulVec L w = fun k : Fin m => α m (k : ℕ) := by
    rw [hL, hwd]
    exact lowerTri_solve_border D α m hw
  have hgram : L * Lᵀ = Matrix.of fun i j : Fin m => α (i : ℕ) (j : ℕ) := by
    rw [hL]
    exact lowerTri_gram D α m hsym heq
  obtain ⟨y, hy⟩ : ∃ y : Fin m → ℝ, y = -(Matrix.mulVec (Lᵀ)⁻¹ w) := ⟨_, rfl⟩
  have hLty : Matrix.mulVec (Lᵀ) y = -w := by
    rw [hy, Matrix.mulVec_neg, Matrix.mulVec_mulVec,
      Matrix.mul_nonsing_inv _ hunitT, Matrix.one_mulVec]
  have hyB : Matrix.dotProduct y
      (Matrix.mulVec (Matrix.of fun i j : Fin m => α (i : ℕ) (j : ℕ)) y) =
      Matrix.dotProduct w w := by
    rw [← hgram, ← Matrix.mulVec_mulVec, Matrix.dotProduct_mulVec,
      ← Matrix.mulVec_transpose, hLty, Matrix.neg_dotProduct,
      Matrix.dotProduct_neg, neg_neg]
  have hyb : Matrix.dotProduct y (fun k : Fin m => α m (k : ℕ)) =
      -(Matrix.dotProduct w w) := by
    rw [← hLw, Matrix.dotProduct_mulVec, ← Matrix.mulVec_transpose, hLty,
      Matrix.neg_dotProduct]
  have hne : (fun i : Fin n => if h : (i : ℕ) < m then y ⟨i, h⟩
      else if (i : ℕ) = m then 1 else 0) ≠ 0 := by
    intro hc
    have h1 : ((fun i : Fin n => if h : (i : ℕ) < m then y ⟨i, h⟩
        else if (i : ℕ) = m then 1 else 0) (⟨m, hm⟩ : Fin n)) = 1 := by
      show (if h : m < m then y ⟨m, h⟩ else if m = m then (1 : ℝ) else 0) = 1
      rw [dif_neg (lt_irrefl m), if_pos rfl]
    rw [hc] at h1
    simp only [Pi.zero_apply] at h1
    exact absurd h1 (by norm_num)
  have hq := hpd.2 _ hne
  have hstar : star (fun i : Fin n => if h : (i : ℕ) < m then y ⟨i, h⟩
      else if (i : ℕ) = m then 1 else 0) =
      (fun i : Fin n => if h : (i : ℕ) < m then y ⟨i, h⟩
        else if (i : ℕ) = m then 1 else 0) :=
    funext fun i => star_trivial _
  rw [hstar, quadform_split n α m hm hsym y, hyB, hyb] at hq
  have hww : Matrix.dotProduct w w = ∑ i ∈ Finset.range m, D m i * D m i := by
    rw [hwd]
    exact Fin.sum_univ_eq_sum_range (fun i => D m i * D m i) m
  rw [hww] at hq
  linarith

/-! ### Factorization loop lemmas, upper branch -/

theorem cholInnerU_a (j k : Nat) (s : CholSt) :
    (cholInnerU j k s).1.a = s.a := by
  induction k with
  | zero => rfl
  | succ k ih => simp only [cholInnerU]; exact ih

theorem cholInnerU_n (j k : Nat) (s : CholSt) :
    (cholInnerU j k s).1.t.n = s.t.n := by
  induction k with
  | zero => rfl
  | succ k ih => simp only [cholInnerU, TriDense.set_n]; exact ih

theorem cholInnerU_uplo (j k : Nat) (s : CholSt) :
    (cholInnerU j k s).1.t.uplo = s.t.uplo := by
  induction k with
  | zero => rfl
  | succ k ih => simp only [cholInnerU, TriDense.set_uplo]; exact ih

theorem cholInnerU_frame (j k : Nat) (s : CholSt) (r c : Nat)
    (h : ¬(c = j ∧ r < k)) :
    (cholInnerU j k s).1.t.data r c = s.t.data r c := by
  induction k with
  | zero => rfl
  | succ k ih =>
    simp only [cholInnerU, TriDense.set_data]
    rw [upd_other _ _ _ _ _ _ (by omega)]
    exact ih (by omega)

theorem cholColU_a (j : Nat) (s : CholSt) : (cholColU j s).2.a = s.a := by
  simp only [cholColU]
  split <;> exact cholInnerU_a j j s

theorem cholColU_false_iff (j : Nat) (s : CholSt) :
    (cholColU j s).1 = false ↔
      (cholInnerU j j s).1.a.at' j j - (cholInnerU j j s).2 ≤ 0 := by
  simp only [cholColU]
  by_cases h : (cholInnerU j j s).1.a.at' j j - (cholInnerU j j s).2 ≤ 0
  · rw [if_pos h]; simpa using h
  · rw [if_neg h]; simpa using h

theorem cholColU_false_eq (j : Nat) (s : CholSt)
    (h : (cholColU j s).1 = false) :
    cholColU j s = (false, ⟨s.a, TriDense.Reset⟩) := by
  have hd := (cholColU_false_iff j s).mp h
  simp only [cholColU]
  rw [if_pos hd, cholInnerU_a]

theorem cholColU_true_eq (j : Nat) (s : CholSt)
    (h : (cholColU j s).1 = true) :
    cholColU j s = (true, ⟨s.a, (cholInnerU j j s).1.t.set j j
      (Real.sqrt (s.a.at' j j - (cholInnerU j j s).2))⟩) := by
  have hd : ¬((cholInnerU j j s).1.a.at' j j - (cholInnerU j j s).2 ≤ 0) := by
    intro hc
    rw [(cholColU_false_iff j s).mpr hc] at h
    exact absurd h (by simp)
  simp only [cholColU]
  rw [if_neg hd, max_eq_left (le_of_lt (lt_of_not_le hd)), cholInnerU_a]

theorem cholColsU_a (m : Nat) (s : CholSt) : (cholColsU m s).2.a = s.a := by
  induction m with
  | zero => rfl
  | succ m ih =>
    simp only [cholColsU]
    split
    · rw [cholColU_a]; exact ih
    · exact ih

theorem cholColsU_false_reset (m : Nat) (s : CholSt)
    (h : (cholColsU m s).1 = false) :
    (cholColsU m s).2.t = TriDense.Reset := by
  induction m with
  | zero => exact absurd h (by simp [cholColsU])
  | succ m ih =>
    simp only [cholColsU] at h ⊢
    by_cases hp : (cholColsU m s).1 = true
    · rw [if_pos hp] at h ⊢
      rw [cholColU_false_eq m (cholColsU m s).2 h]
    · rw [if_neg hp] at h ⊢
      exact ih h

theorem cholColsU_false_iff (m : Nat) (s : CholSt) :
    (cholColsU m s).1 = false ↔
      ∃ j, j < m ∧ (cholColsU j s).1 = true ∧ cholPivotU s j ≤ 0 := by
  induction m with
  | zero => simp [cholColsU]
  | succ m ih =>
    simp only [cholColsU]
    by_cases hp : (cholColsU m s).1 = true
    · rw [if_pos hp]
      constructor
      · intro h
        refine ⟨m, by omega, hp, ?_⟩
        have hd := (cholColU_false_iff m (cholColsU m s).2).mp h
        rw [cholInnerU_a] at hd
        simpa [cholPivotU, cholInnerU_a] using hd
      · rintro ⟨j, hj, hflag, hpiv⟩
        rcases Nat.lt_or_ge j m with hjm | hjm
        · exact absurd (ih.mpr ⟨j, hjm, hflag, hpiv⟩) (by simp [hp])
        · have hjm' : j = m := by omega
          subst hjm'
          refine (cholColU_false_iff j (cholColsU j s).2).mpr ?_
          rw [cholInnerU_a]
          simpa [cholPivotU, cholInnerU_a] using hpiv
    · have hfalse : (cholColsU m s).1 = false := by
        cases hflag : (cholColsU m s).1
        · rfl
        · exact absurd hflag hp
      rw [if_neg hp]
      constructor
      · intro _
        obtain ⟨j, hj, h1, h2⟩ := ih.mp hfalse
        exact ⟨j, by omega, h1, h2⟩
      · intro _
        exact hfalse

theorem cholColsU_success_meta (m : Nat) (s0 : CholSt)
    (h : (cholColsU m s0).1 = true) :
    (cholColsU m s0).2.t.n = s0.t.n ∧ (cholColsU m s0).2.t.uplo = s0.t.uplo ∧
    (∀ r c, ¬(c < m ∧ r ≤ c) → (cholColsU m s0).2.t.data r c = s0.t.data r c) := by
  induction m with
  | zero => exact ⟨rfl, rfl, fun _ _ _ => rfl⟩
  | succ m ih =>
    have hp : (cholColsU m s0).1 = true := by
      by_contra hc
      have hfalse : (cholColsU m s0).1 = false := by
        cases hflag : (cholColsU m s0).1
        · rfl
        · exact absurd hflag hc
      simp only [cholColsU] at h
      rw [if_neg (by simp [hfalse])] at h
      rw [hfalse] at h
      exact absurd h (by simp)
    obtain ⟨ihn, ihu, ihfr⟩ := ih hp
    have hstep : cholColsU (m + 1) s0 = cholColU m (cholColsU m s0).2 := by
      simp only [cholColsU]; rw [if_pos hp]
    have hcflag : (cholColU m (cholColsU m s0).2).1 = true := by
      rw [← hstep]; exact h
    have htrue := cholColU_true_eq m (cholColsU m s0).2 hcflag
    rw [hstep, htrue]
    dsimp only
    refine ⟨?_, ?_, ?_⟩
    · rw [TriDense.set_n, cholInnerU_n, ihn]
    · rw [TriDense.set_uplo, cholInnerU_uplo, ihu]
    · intro r c hrc
      rw [TriDense.set_data, upd_other _ _ _ _ _ _ (by omega),
        cholInnerU_frame m m _ r c (by omega), ihfr r c (by omega)]

/-! ### The two branches are transposes of each other -/

theorem cholInnerU_flip (j k : Nat) (sU sL : CholSt)
    (ha : sU.a = sL.a)
    (hud : ∀ r c, sU.t.data r c = sL.t.data c r) :
    (∀ r c, (cholInnerU j k sU).1.t.data r c =
      (cholInnerL j k sL).1.t.data c r) ∧
    (cholInnerU j k sU).2 = (cholInnerL j k sL).2 := by
  induction k with
  | zero => exact ⟨hud, rfl⟩
  | succ k ih =>
    obtain ⟨ihd, ihs⟩ := ih
    have hdot : ∑ i ∈ Finset.range k,
        (cholInnerU j k sU).1.t.data i k * (cholInnerU j k sU).1.t.data i j =
        ∑ i ∈ Finset.range k,
          (cholInnerL j k sL).1.t.data k i * (cholInnerL j k sL).1.t.data j i :=
      Finset.sum_congr rfl fun i _ => by rw [ihd i k, ihd i j]
    have hva : (cholInnerU j k sU).1.a = (cholInnerL j k sL).1.a := by
      rw [cholInnerU_a, cholInnerL_a, ha]
    have hat : (cholInnerU j k sU).1.t.at' k k =
        (cholInnerL j k sL).1.t.at' k k := by
      rw [TriDense.at'_diag, TriDense.at'_diag, ihd k k]
    constructor
    · intro r c
      simp only [cholInnerU, cholInnerL, TriDense.set_data]
      rw [hva, hat, hdot]
      unfold upd
      by_cases hrc : r = k ∧ c = j
      · rw [if_pos hrc, if_pos ⟨hrc.2, hrc.1⟩]
      · rw [if_neg hrc, if_neg (fun hh => hrc ⟨hh.2, hh.1⟩), ihd r c]
    · simp only [cholInnerU, cholInnerL]
      rw [hva, hat, hdot, ihs]

theorem cholColU_flip (j : Nat) (sU sL : CholSt)
    (ha : sU.a = sL.a)
    (hud : ∀ r c, sU.t.data r c = sL.t.data c r) :
    (cholColU j sU).1 = (cholColL j sL).1 ∧
    ((cholColU j sU).1 = true →
      ∀ r c, (cholColU j sU).2.t.data r c = (cholColL j sL).2.t.data c r) := by
  obtain ⟨ihd, ihs⟩ := cholInnerU_flip j j sU sL ha hud
  have hva : (cholInnerU j j sU).1.a = (cholInnerL j j sL).1.a := by
    rw [cholInnerU_a, cholInnerL_a, ha]
  have hd : (cholInnerU j j sU).1.a.at' j j - (cholInnerU j j sU).2 =
      (cholInnerL j j sL).1.a.at' j j - (cholInnerL j j sL).2 := by
    rw [hva, ihs]
  have hflag : (cholColU j sU).1 = (cholColL j sL).1 := by
    by_cases hdle : (cholInnerL j j sL).1.a.at' j j - (cholInnerL j j sL).2 ≤ 0
    · rw [(cholColU_false_iff j sU).mpr (by rw [hd]; exact hdle),
        (cholColL_false_iff j sL).mpr hdle]
    · cases hU : (cholColU j sU).1
      · exact absurd ((cholColU_false_iff j sU).mp hU)
          (by rw [hd]; exact hdle)
      · cases hLf : (cholColL j sL).1
        · exact absurd ((cholColL_false_iff j sL).mp hLf) hdle
        · rfl
  refine ⟨hflag, fun htrue => ?_⟩
  have hLtrue : (cholColL j sL).1 = true := by rw [← hflag]; exact htrue
  rw [cholColU_true_eq j sU htrue, cholColL_true_eq j sL hLtrue]
  dsimp only
  intro r c
  rw [TriDense.set_data, TriDense.set_data]
  have hval : Real.sqrt (sU.a.at' j j - (cholInnerU j j sU).2) =
      Real.sqrt (sL.a.at' j j - (cholInnerL j j sL).2) := by rw [ha, ihs]
  unfold upd
  by_cases hrc : r = j ∧ c = j
  · rw [if_pos hrc, if_pos ⟨hrc.2, hrc.1⟩, hval]
  · rw [if_neg hrc, if_neg (fun hh => hrc ⟨hh.2, hh.1⟩), ihd r c]

theorem cholColsU_flip (m : Nat) (sU sL : CholSt)
    (ha : sU.a = sL.a)
    (hud : ∀ r c, sU.t.data r c = sL.t.data c r) :
    (cholColsU m sU).1 = (cholColsL m sL).1 ∧
    ((cholColsU m sU).1 = true →
      ∀ r c, (cholColsU m sU).2.t.data r c =
        (cholColsL m sL).2.t.data c r) := by
  induction m with
  | zero => exact ⟨rfl, fun _ => hud⟩
  | succ m ih =>
    obtain ⟨ihf, ihd⟩ := ih
    simp only [cholColsU, cholColsL]
    by_cases hp : (cholColsU m sU).1 = true
    · have hpL : (cholColsL m sL).1 = true := by rw [← ihf]; exact hp
      rw [if_pos hp, if_pos hpL]
      have haXY : (cholColsU m sU).2.a = (cholColsL m sL).2.a := by
        rw [cholColsU_a, cholColsL_a, ha]
      exact cholColU_flip m _ _ haXY (ihd hp)
    · have hpL : ¬(cholColsL m sL).1 = true := by rw [← ihf]; exact hp
      rw [if_neg hp, if_neg hpL]
      exact ⟨ihf, fun htrue => absurd htrue hp⟩

/-! ### Top-level assembly lemmas -/

theorem bodyStart_a (t : TriDense ℝ) (a : SymDense ℝ) (upper : Bool) :
    (bodyStart t a upper).a = a := rfl

theorem bodyStart_uplo (t : TriDense ℝ) (a : SymDense ℝ) (upper : Bool) :
    (bodyStart t a upper).t.uplo = if upper then Uplo.Upper else Uplo.Lower :=
  rfl

theorem bodyStart_data (t : TriDense ℝ) (a : SymDense ℝ) (upper : Bool) :
    (bodyStart t a upper).t.data = t.data := by
  unfold bodyStart
  dsimp only
  split <;> rfl

theorem bodyStart_n (t : TriDense ℝ) (a : SymDense ℝ) (upper : Bool)
    (hsz : t.isZero = true ∨ t.n = a.n) :
    (bodyStart t a upper).t.n = a.n := by
  unfold bodyStart
  dsimp only
  split
  · rfl
  · next h => exact hsz.resolve_left (by simpa using h)

theorem cholesky_run (t : TriDense ℝ) (a : SymDense ℝ) (upper : Bool)
    (hsz : t.isZero = true ∨ t.n = a.n) :
    t.Cholesky a upper =
      .ok (if upper then cholColsU a.n (bodyStart t a upper)
        else cholColsL a.n (bodyStart t a upper)) := by
  unfold TriDense.Cholesky cholBody bodyStart SymDense.Symmetric
  by_cases hz : t.isZero
  · rw [if_pos hz, if_pos hz]
    cases upper
    · rfl
    · rfl
  · have hn : t.n = a.n := hsz.resolve_left (by simpa using hz)
    rw [if_neg hz, if_neg hz, if_neg (by omega)]
    cases upper
    · rfl
    · rfl

theorem cholBody_a (s : CholSt) (upper : Bool) (n : Nat) :
    (cholBody s upper n).2.a = s.a := by
  unfold cholBody
  cases upper
  · exact cholColsL_a n _
  · exact cholColsU_a n _

/-- On a positive-definite logical input, every column of the lower branch
succeeds. -/
theorem cholColsL_posdef_true (s0 : CholSt)
    (hpd : (Matrix.of fun i j : Fin s0.a.n =>
      s0.a.at' (i : ℕ) (j : ℕ)).PosDef)
    (m : Nat) (hmn : m ≤ s0.a.n) :
    (cholColsL m s0).1 = true := by
  induction m with
  | zero => rfl
  | succ m ih =>
    have hp : (cholColsL m s0).1 = true := ih (by omega)
    simp only [cholColsL]
    rw [if_pos hp]
    by_contra hc
    have hfalse : (cholColL m (cholColsL m s0).2).1 = false := by
      cases hflag : (cholColL m (cholColsL m s0).2).1
      · rfl
      · exact absurd hflag hc
    have hd := (cholColL_false_iff _ _).mp hfalse
    rw [cholInnerL_a, cholColsL_a] at hd
    obtain ⟨ihn, ihu, ihfr, iheq, ihpos⟩ := cholColsL_success_inv m s0 hp
    have hdiagne : ∀ i, i < m → (cholColsL m s0).2.t.data i i ≠ 0 :=
      fun i hi => ne_of_gt (ihpos i hi)
    have hinner_eqs := cholInnerL_eqs m m (cholColsL m s0).2 (le_refl m) hdiagne
    rw [cholColsL_a] at hinner_eqs
    have hinner_d := cholInnerL_d m m (cholColsL m s0).2
    have hpositive := posdef_chol_pivot_pos s0.a.n
      (fun r c => s0.a.at' r c)
      (cholInnerL m m (cholColsL m s0).2).1.t.data m (by omega)
      (fun r c => SymDense.at'_symm s0.a r c) hpd
      (fun j k hj hk => by
        show ∑ i ∈ Finset.range (k + 1),
          (cholInnerL m m (cholColsL m s0).2).1.t.data j i *
            (cholInnerL m m (cholColsL m s0).2).1.t.data k i = s0.a.at' j k
        rw [← iheq j k hj hk]
        exact Finset.sum_congr rfl fun i hi => by
          rw [cholInnerL_frame m m _ j i (by omega),
            cholInnerL_frame m m _ k i (by omega)])
      (fun i hi => hinner_eqs i hi)
      (fun j hj => by
        show 0 < (cholInnerL m m (cholColsL m s0).2).1.t.data j j
        rw [cholInnerL_frame m m _ j j (by omega)]
        exact ihpos j hj)
    have hpositive2 : 0 < s0.a.at' m m -
        ∑ i ∈ Finset.range m,
          (cholInnerL m m (cholColsL m s0).2).1.t.data m i *
            (cholInnerL m m (cholColsL m s0).2).1.t.data m i := hpositive
    rw [← hinner_d] at hpositive2
    linarith

theorem cholColL_nc (j : Nat) (s : CholSt) : cholColL j s = cholColLNC j s := by
  simp only [cholColL, cholColLNC]
  by_cases h : (cholInnerL j j s).1.a.at' j j - (cholInnerL j j s).2 ≤ 0
  · rw [if_pos h, if_pos h]
  · rw [if_neg h, if_neg h, max_eq_left (le_of_lt (lt_of_not_le h))]

theorem cholColU_nc (j : Nat) (s : CholSt) : cholColU j s = cholColUNC j s := by
  simp only [cholColU, cholColUNC]
  by_cases h : (cholInnerU j j s).1.a.at' j j - (cholInnerU j j s).2 ≤ 0
  · rw [if_pos h, if_pos h]
  · rw [if_neg h, if_neg h, max_eq_left (le_of_lt (lt_of_not_le h))]

theorem cholColsL_nc (m : Nat) (s : CholSt) :
    cholColsL m s = cholColsLNC m s := by
  induction m with
  | zero => rfl
  | succ m ih =>
    simp only [cholColsL, cholColsLNC]
    rw [← ih, ← cholColL_nc]

theorem cholColsU_nc (m : Nat) (s : CholSt) :
    cholColsU m s = cholColsUNC m s := by
  induction m with
  | zero => rfl
  | succ m ih =>
    simp only [cholColsU, cholColsUNC]
    rw [← ih, ← cholColU_nc]

theorem cholBody_nc (s : CholSt) (upper : Bool) (n : Nat) :
    cholBody s upper n = cholBodyNC s upper n := by
  unfold cholBody cholBodyNC
  cases upper
  · simp [cholColsL_nc]
  · simp [cholColsU_nc]

/-- C10: the defensive clamp inside `sqrt(max(d, 0))` never changes the
value passed to `sqrt`: by the time it is evaluated, the early return on
`d ≤ 0` has established `d > 0`, so the factorization coincides with its
clamp-free variant on every input and both branches. -/
theorem cholesky_clamp_never_fires (t : TriDense ℝ) (a : SymDense ℝ)
    (upper : Bool) : t.Cholesky a upper = CholeskyNC t a upper := by
  unfold TriDense.Cholesky CholeskyNC
  by_cases hz : t.isZero
  · rw [if_pos hz, if_pos hz, cholBody_nc]
  · rw [if_neg hz, if_neg hz]
    by_cases hn : a.Symmetric ≠ t.n
    · rw [if_pos hn, if_pos hn]
    · rw [if_neg hn, if_neg hn, cholBody_nc]

/-- C9: the factorizer never mutates the symmetric input: on every call
that runs (both the success and the failure path), the symmetric component
of the final state is the input view itself. -/
theorem cholesky_input_unchanged (t : TriDense ℝ) (a : SymDense ℝ)
    (upper : Bool) (b : Bool) (s' : CholSt)
    (hrun : t.Cholesky a upper = .ok (b, s')) : s'.a = a := by
  simp only [TriDense.Cholesky] at hrun
  by_cases hz : t.isZero
  · rw [if_pos hz] at hrun
    have hX := Except.ok.inj hrun
    have h2 := congrArg (fun p : Bool × CholSt => p.2.a) hX
    dsimp only at h2
    rw [cholBody_a] at h2
    exact h2.symm
  · rw [if_neg hz] at hrun
    by_cases hn : a.Symmetric ≠ t.n
    · rw [if_pos hn] at hrun
      simp at hrun
    · rw [if_neg hn] at hrun
      have hX := Except.ok.inj hrun
      have h2 := congrArg (fun p : Bool × CholSt => p.2.a) hX
      dsimp only at h2
      rw [cholBody_a] at h2
      exact h2.symm

/-- A concrete successful run: the 1×1 symmetric view with entry 4,
factored (lower) into an empty target. -/
theorem cholesky_eval_pos :
    (⟨0, Uplo.Zero, fun _ _ => 0⟩ : TriDense ℝ).Cholesky
        ⟨1, fun _ _ => 4⟩ false =
      .ok (true, ⟨⟨1, fun _ _ => 4⟩,
        ⟨1, Uplo.Lower, upd (fun _ _ => 0) 0 0 (Real.sqrt (4 - 0))⟩⟩) := by
  rw [cholesky_run ⟨0, Uplo.Zero, fun _ _ => 0⟩ ⟨1, fun _ _ => 4⟩ false
    (Or.inl rfl)]
  have hflag : (cholColL 0 (bodyStart ⟨0, Uplo.Zero, fun _ _ => 0⟩
      ⟨1, fun _ _ => 4⟩ false)).1 = true := by
    cases hflag : (cholColL 0 (bodyStart ⟨0, Uplo.Zero, fun _ _ => 0⟩
        ⟨1, fun _ _ => 4⟩ false)).1
    · have hd := (cholColL_false_iff _ _).mp hflag
      have hd4 : (4 : ℝ) - 0 ≤ 0 := hd
      norm_num at hd4
    · rfl
  have hcols : cholColsL 1 (bodyStart ⟨0, Uplo.Zero, fun _ _ => 0⟩
      ⟨1, fun _ _ => 4⟩ false) = cholColL 0 (bodyStart ⟨0, Uplo.Zero,
        fun _ _ => 0⟩ ⟨1, fun _ _ => 4⟩ false) := by
    simp only [cholColsL]
    rw [if_pos trivial]
  show Except.ok (cholColsL 1 (bodyStart ⟨0, Uplo.Zero, fun _ _ => 0⟩
      ⟨1, fun _ _ => 4⟩ false)) = _
  rw [hcols, cholColL_true_eq 0 _ hflag]
  rfl

/-- Witness for C9: the concrete successful run leaves the input view
untouched. -/
theorem cholesky_input_unchanged_witness :
    (⟨⟨1, fun _ _ => 4⟩, ⟨1, Uplo.Lower,
        upd (fun _ _ => 0) 0 0 (Real.sqrt (4 - 0))⟩⟩ : CholSt).a =
      ⟨1, fun _ _ => 4⟩ :=
  cholesky_input_unchanged ⟨0, Uplo.Zero, fun _ _ => 0⟩ ⟨1, fun _ _ => 4⟩
    false true _ cholesky_eval_pos

/-- A concrete failed run: the 1×1 symmetric view with entry -1. -/
theorem cholesky_eval_neg :
    (⟨0, Uplo.Zero, fun _ _ => 0⟩ : TriDense ℝ).Cholesky
        ⟨1, fun _ _ => -1⟩ false =
      .ok (false, ⟨⟨1, fun _ _ => -1⟩, TriDense.Reset⟩) := by
  rw [cholesky_run ⟨0, Uplo.Zero, fun _ _ => 0⟩ ⟨1, fun _ _ => -1⟩ false
    (Or.inl rfl)]
  have hflag : (cholColL 0 (bodyStart ⟨0, Uplo.Zero, fun _ _ => 0⟩
      ⟨1, fun _ _ => -1⟩ false)).1 = false := by
    refine (cholColL_false_iff _ _).mpr ?_
    show (-1 : ℝ) - 0 ≤ 0
    norm_num
  have hcols : cholColsL 1 (bodyStart ⟨0, Uplo.Zero, fun _ _ => 0⟩
      ⟨1, fun _ _ => -1⟩ false) = cholColL 0 (bodyStart ⟨0, Uplo.Zero,
        fun _ _ => 0⟩ ⟨1, fun _ _ => -1⟩ false) := by
    simp only [cholColsL]
    rw [if_pos trivial]
  show Except.ok (cholColsL 1 (bodyStart ⟨0, Uplo.Zero, fun _ _ => 0⟩
      ⟨1, fun _ _ => -1⟩ false)) = _
  rw [hcols, cholColL_false_eq 0 _ hflag]
  rfl

/-- C2: on a shape-valid call of either branch, the factorizer reports
failure exactly when some column's diagonal candidate d, formed as the
input diagonal entry minus the accumulated squares after all earlier
columns succeeded, is ≤ 0; and on failure the output triangular view is the
reset empty view, so no partially written factor is observable. -/
theorem cholesky_failure_iff_reset (t : TriDense ℝ) (a : SymDense ℝ)
    (upper : Bool) (hsz : t.isZero = true ∨ t.n = a.n) (b : Bool)
    (s' : CholSt) (hrun : t.Cholesky a upper = .ok (b, s')) :
    (b = false ↔ ∃ j, j < a.n ∧ cholFlagAt t a upper j = true ∧
      cholPivot t a upper j ≤ 0) ∧
    (b = false → s'.t = TriDense.Reset) := by
  have hrun2 := cholesky_run t a upper hsz
  rw [hrun] at hrun2
  have hpair := Except.ok.inj hrun2
  cases upper
  · have hb : b = (cholColsL a.n (bodyStart t a false)).1 :=
      congrArg Prod.fst hpair
    have hs : s' = (cholColsL a.n (bodyStart t a false)).2 :=
      congrArg Prod.snd hpair
    constructor
    · rw [hb]
      exact cholColsL_false_iff a.n (bodyStart t a false)
    · intro hbf
      rw [hs]
      refine cholColsL_false_reset a.n _ ?_
      rw [← hb]
      exact hbf
  · have hb : b = (cholColsU a.n (bodyStart t a true)).1 :=
      congrArg Prod.fst hpair
    have hs : s' = (cholColsU a.n (bodyStart t a true)).2 :=
      congrArg Prod.snd hpair
    constructor
    · rw [hb]
      exact cholColsU_false_iff a.n (bodyStart t a true)
    · intro hbf
      rw [hs]
      refine cholColsU_false_reset a.n _ ?_
      rw [← hb]
      exact hbf

/-- Witness for C2: the failed 1×1 run returns false with the first pivot
-1 ≤ 0, and its output view is the reset view. -/
theorem cholesky_failure_iff_reset_witness :
    ((false = false ↔ ∃ j, j < (1 : Nat) ∧
      cholFlagAt ⟨0, Uplo.Zero, fun _ _ => 0⟩ ⟨1, fun _ _ => -1⟩ false j = true ∧
      cholPivot ⟨0, Uplo.Zero, fun _ _ => 0⟩ ⟨1, fun _ _ => -1⟩ false j ≤ 0) ∧
    (false = false →
      (⟨⟨1, fun _ _ => -1⟩, TriDense.Reset⟩ : CholSt).t = TriDense.Reset)) :=
  cholesky_failure_iff_reset ⟨0, Uplo.Zero, fun _ _ => 0⟩ ⟨1, fun _ _ => -1⟩
    false (Or.inl rfl) false _ cholesky_eval_neg

/-- C3: the factorizer allocates an empty target to n×n and proceeds,
panics with the shape violation on a non-empty target of the wrong
dimension before writing anything, and reuses a correctly sized non-empty
target in place, leaving the inactive half of its buffer untouched on
success. -/
theorem cholesky_shape_cases (t : TriDense ℝ) (a : SymDense ℝ)
    (upper : Bool) :
    (t.isZero = true →
      t.Cholesky a upper =
        .ok (cholBody ⟨a, ⟨a.n, Uplo.Zero, t.data⟩⟩ upper a.n)) ∧
    (t.isZero = false → t.n ≠ a.n →
      t.Cholesky a upper = .error .ErrShape) ∧
    (t.isZero = false → t.n = a.n →
      t.Cholesky a upper = .ok (cholBody ⟨a, t⟩ upper a.n) ∧
      ∀ b s', cholBody ⟨a, t⟩ upper a.n = (b, s') → b = true →
        ∀ r c : Nat,
          (upper = true → c < r → s'.t.data r c = t.data r c) ∧
          (upper = false → r < c → s'.t.data r c = t.data r c)) := by
  refine ⟨fun hz => ?_, fun hz hn => ?_, fun hz hn => ⟨?_, ?_⟩⟩
  · simp only [TriDense.Cholesky]
    rw [if_pos hz]
    rfl
  · simp only [TriDense.Cholesky]
    rw [if_neg (by simp [hz]), if_pos ?hcond]
    case hcond =>
      show a.Symmetric ≠ t.n
      simp only [SymDense.Symmetric]
      omega
  · simp only [TriDense.Cholesky]
    rw [if_neg (by simp [hz]), if_neg ?hcond2]
    · rfl
    case hcond2 =>
      show ¬(a.Symmetric ≠ t.n)
      simp only [SymDense.Symmetric]
      omega
  · intro b s' hbody hb r c
    constructor
    · intro hupper hcr
      subst hupper
      have hbody2 : cholColsU a.n ⟨a, { t with uplo := Uplo.Upper }⟩ =
          (b, s') := hbody
      have hflag : (cholColsU a.n ⟨a, { t with uplo := Uplo.Upper }⟩).1 =
          true := by
        have hfst : (cholColsU a.n ⟨a, { t with uplo := Uplo.Upper }⟩).1 = b :=
          congrArg Prod.fst hbody2
        rw [hfst]
        exact hb
      have hs' : (cholColsU a.n ⟨a, { t with uplo := Uplo.Upper }⟩).2 = s' :=
        congrArg Prod.snd hbody2
      rw [← hs']
      exact (cholColsU_success_meta a.n _ hflag).2.2 r c (by omega)
    · intro hupper hcr
      subst hupper
      have hbody2 : cholColsL a.n ⟨a, { t with uplo := Uplo.Lower }⟩ =
          (b, s') := hbody
      have hflag : (cholColsL a.n ⟨a, { t with uplo := Uplo.Lower }⟩).1 =
          true := by
        have hfst : (cholColsL a.n ⟨a, { t with uplo := Uplo.Lower }⟩).1 = b :=
          congrArg Prod.fst hbody2
        rw [hfst]
        exact hb
      have hs' : (cholColsL a.n ⟨a, { t with uplo := Uplo.Lower }⟩).2 = s' :=
        congrArg Prod.snd hbody2
      rw [← hs']
      exact (cholColsL_success_inv a.n _ hflag).2.2.1 r c (by omega)

/-- Witness for C3: the three shape cases at concrete views of dimensions
0, 2 and 1 against a 1×1 input. -/
theorem cholesky_shape_cases_witness :
    ((⟨0, Uplo.Zero, fun _ _ => 0⟩ : TriDense ℝ).Cholesky ⟨1, fun _ _ => 4⟩
      false = .ok (cholBody ⟨⟨1, fun _ _ => 4⟩,
        ⟨1, Uplo.Zero, fun _ _ => 0⟩⟩ false 1)) ∧
    ((⟨2, Uplo.Upper, fun _ _ => 0⟩ : TriDense ℝ).Cholesky ⟨1, fun _ _ => 4⟩
      false = .error .ErrShape) ∧
    ((⟨1, Uplo.Upper, fun _ _ => 0⟩ : TriDense ℝ).Cholesky ⟨1, fun _ _ => 4⟩
      false = .ok (cholBody ⟨⟨1, fun _ _ => 4⟩,
        ⟨1, Uplo.Upper, fun _ _ => 0⟩⟩ false 1)) :=
  ⟨(cholesky_shape_cases ⟨0, Uplo.Zero, fun _ _ => 0⟩ ⟨1, fun _ _ => 4⟩
      false).1 rfl,
    (cholesky_shape_cases ⟨2, Uplo.Upper, fun _ _ => 0⟩ ⟨1, fun _ _ => 4⟩
      false).2.1 rfl (by decide),
    ((cholesky_shape_cases ⟨1, Uplo.Upper, fun _ _ => 0⟩ ⟨1, fun _ _ => 4⟩
      false).2.2 rfl rfl).1⟩

/-- The logical matrix of a symmetric view is Hermitian (real symmetric),
because the read accessor canonicalizes coordinates. -/
theorem symDense_toMatrix_isHermitian (a : SymDense ℝ) :
    a.toMatrix.IsHermitian := by
  ext i j
  show star (a.at' (j : ℕ) (i : ℕ)) = a.at' (i : ℕ) (j : ℕ)
  rw [star_trivial, SymDense.at'_symm]

/-- C1: on a shape-valid call with a positive-definite symmetric input,
the factorization returns true, the output is n×n with the orientation tag
matching the requested branch, and the triangular factor reconstructs the
input exactly: L·Lᵗ = A for the lower branch, Uᵗ·U = A for the upper
branch. -/
theorem cholesky_posdef_factorizes (t : TriDense ℝ) (a : SymDense ℝ)
    (upper : Bool) (hsz : t.isZero = true ∨ t.n = a.n)
    (hpd : a.toMatrix.PosDef) :
    ∃ s', t.Cholesky a upper = .ok (true, s') ∧ s'.t.n = a.n ∧
      s'.t.uplo = (if upper then Uplo.Upper else Uplo.Lower) ∧
      (if upper then (s'.t.matN a.n)ᵀ * s'.t.matN a.n = a.toMatrix
        else s'.t.matN a.n * (s'.t.matN a.n)ᵀ = a.toMatrix) := by
  cases upper
  · have hflag : (cholColsL a.n (bodyStart t a false)).1 = true :=
      cholColsL_posdef_true (bodyStart t a false) hpd a.n (le_refl _)
    obtain ⟨invn, invu, invfr, inveq, invpos⟩ :=
      cholColsL_success_inv a.n (bodyStart t a false) hflag
    refine ⟨(cholColsL a.n (bodyStart t a false)).2, ?_, ?_, ?_, ?_⟩
    · rw [cholesky_run t a false hsz]
      have hXeta : cholColsL a.n (bodyStart t a false) =
          (true, (cholColsL a.n (bodyStart t a false)).2) :=
        Prod.ext hflag rfl
      exact congrArg Except.ok hXeta
    · rw [invn, bodyStart_n t a false hsz]
    · rw [invu, bodyStart_uplo]
    · show (cholColsL a.n (bodyStart t a false)).2.t.matN a.n *
        ((cholColsL a.n (bodyStart t a false)).2.t.matN a.n)ᵀ = a.toMatrix
      have huplo : (cholColsL a.n (bodyStart t a false)).2.t.uplo =
          Uplo.Lower := by rw [invu, bodyStart_uplo]; rfl
      have hmatL : (cholColsL a.n (bodyStart t a false)).2.t.matN a.n =
          Matrix.of fun k i : Fin a.n => if (k : ℕ) < (i : ℕ) then (0 : ℝ)
            else (cholColsL a.n (bodyStart t a false)).2.t.data k i := by
        ext r c
        show (cholColsL a.n (bodyStart t a false)).2.t.at' (r : ℕ) (c : ℕ) = _
        unfold TriDense.at'
        rw [huplo, if_neg (by decide)]
        rfl
      rw [hmatL]
      exact lowerTri_gram _ _ a.n (fun r c => SymDense.at'_symm a r c)
        (fun j k hj hk => inveq j k hj hk)
  · have hud : ∀ r c, (bodyStart t a true).t.data r c =
        ((⟨a, ⟨a.n, Uplo.Lower, fun r c => t.data c r⟩⟩ : CholSt)).t.data c r :=
      fun r c => by rw [bodyStart_data]
    have hflagL : (cholColsL a.n
        ⟨a, ⟨a.n, Uplo.Lower, fun r c => t.data c r⟩⟩).1 = true :=
      cholColsL_posdef_true ⟨a, ⟨a.n, Uplo.Lower, fun r c => t.data c r⟩⟩
        hpd a.n (le_refl _)
    obtain ⟨hflip_flag, hflip_data⟩ := cholColsU_flip a.n (bodyStart t a true)
      ⟨a, ⟨a.n, Uplo.Lower, fun r c => t.data c r⟩⟩ rfl hud
    have hflagU : (cholColsU a.n (bodyStart t a true)).1 = true := by
      rw [hflip_flag]
      exact hflagL
    obtain ⟨metan, metau, metafr⟩ :=
      cholColsU_success_meta a.n (bodyStart t a true) hflagU
    obtain ⟨invn, invu, invfr, inveq, invpos⟩ := cholColsL_success_inv a.n
      ⟨a, ⟨a.n, Uplo.Lower, fun r c => t.data c r⟩⟩ hflagL
    refine ⟨(cholColsU a.n (bodyStart t a true)).2, ?_, ?_, ?_, ?_⟩
    · rw [cholesky_run t a true hsz]
      have hXeta : cholColsU a.n (bodyStart t a true) =
          (true, (cholColsU a.n (bodyStart t a true)).2) :=
        Prod.ext hflagU rfl
      exact congrArg Except.ok hXeta
    · rw [metan, bodyStart_n t a true hsz]
    · rw [metau, bodyStart_uplo]
    · show ((cholColsU a.n (bodyStart t a true)).2.t.matN a.n)ᵀ *
        (cholColsU a.n (bodyStart t a true)).2.t.matN a.n = a.toMatrix
      have huplo : (cholColsU a.n (bodyStart t a true)).2.t.uplo =
          Uplo.Upper := by rw [metau, bodyStart_uplo]; rfl
      have hmatUT : ((cholColsU a.n (bodyStart t a true)).2.t.matN a.n)ᵀ =
          Matrix.of fun k i : Fin a.n => if (k : ℕ) < (i : ℕ) then (0 : ℝ)
            else (cholColsL a.n
              ⟨a, ⟨a.n, Uplo.Lower, fun r c => t.data c r⟩⟩).2.t.data k i := by
        ext r c
        show (cholColsU a.n (bodyStart t a true)).2.t.at' (c : ℕ) (r : ℕ) = _
        unfold TriDense.at'
        rw [huplo, if_pos rfl]
        by_cases hrc : (r : ℕ) < (c : ℕ)
        · rw [if_pos hrc]
          show (0 : ℝ) = (if (r : ℕ) < (c : ℕ) then (0 : ℝ) else _)
          rw [if_pos hrc]
        · rw [if_neg hrc]
          show (cholColsU a.n (bodyStart t a true)).2.t.data (c : ℕ) (r : ℕ) =
            (if (r : ℕ) < (c : ℕ) then (0 : ℝ) else _)
          rw [if_neg hrc, hflip_data hflagU (c : ℕ) (r : ℕ)]
      have hmatU : (cholColsU a.n (bodyStart t a true)).2.t.matN a.n =
          (Matrix.of fun k i : Fin a.n => if (k : ℕ) < (i : ℕ) then (0 : ℝ)
            else (cholColsL a.n
              ⟨a, ⟨a.n, Uplo.Lower, fun r c => t.data c r⟩⟩).2.t.data k i)ᵀ := by
        rw [← hmatUT, Matrix.transpose_transpose]
      rw [hmatU, Matrix.transpose_transpose]
      exact lowerTri_gram _ _ a.n (fun r c => SymDense.at'_symm a r c)
        (fun j k hj hk => inveq j k hj hk)

/-- The 1×1 symmetric view with entry 4 presents a positive-definite
matrix. -/
theorem posdef_entry4 :
    ((⟨1, fun _ _ => 4⟩ : SymDense ℝ).toMatrix).PosDef := by
  constructor
  · exact symDense_toMatrix_isHermitian _
  · intro x hx
    have hx0 : x 0 ≠ 0 := by
      intro h0
      apply hx
      funext i
      rw [Subsingleton.elim i 0, h0]
      rfl
    have h1 : Matrix.dotProduct (star x)
        ((⟨1, fun _ _ => 4⟩ : SymDense ℝ).toMatrix *ᵥ x) =
        star (x 0) * ((⟨1, fun _ _ => 4⟩ : SymDense ℝ).toMatrix *ᵥ x) 0 :=
      Fin.sum_univ_one _
    have h2 : ((⟨1, fun _ _ => 4⟩ : SymDense ℝ).toMatrix *ᵥ x) 0 =
        (⟨1, fun _ _ => 4⟩ : SymDense ℝ).toMatrix 0 0 * x 0 :=
      Fin.sum_univ_one
        (fun j => (⟨1, fun _ _ => 4⟩ : SymDense ℝ).toMatrix 0 j * x j)
    rw [h1, h2, star_trivial]
    show 0 < x 0 * ((4 : ℝ) * x 0)
    nlinarith [mul_self_pos.mpr hx0]

/-- Witness for C1: the 1×1 positive-definite input is factored
successfully with exact reconstruction. -/
theorem cholesky_posdef_factorizes_witness :
    ∃ s', (⟨0, Uplo.Zero, fun _ _ => 0⟩ : TriDense ℝ).Cholesky
        ⟨1, fun _ _ => 4⟩ false = .ok (true, s') ∧
      s'.t.n = 1 ∧
      s'.t.uplo = (if false then Uplo.Upper else Uplo.Lower) ∧
      (if false then (s'.t.matN 1)ᵀ * s'.t.matN 1 =
          (⟨1, fun _ _ => 4⟩ : SymDense ℝ).toMatrix
        else s'.t.matN 1 * (s'.t.matN 1)ᵀ =
          (⟨1, fun _ _ => 4⟩ : SymDense ℝ).toMatrix) :=
  cholesky_posdef_factorizes ⟨0, Uplo.Zero, fun _ _ => 0⟩ ⟨1, fun _ _ => 4⟩
    false (Or.inl rfl) posdef_entry4

end Mat64
